import Mathlib

/-!
Shallow embedding of the `raw-btree` library core (`src/lib.rs`,
`src/storage.rs`, `src/balancing.rs`, `src/node/{mod,leaf,internal,addr}.rs`,
`src/utils/{mod,array}.rs`).

Conventions of the embedding:
* Node handles (`S::Node`, raw pointers in the reference `BoxStorage`) are
  modelled as arena indices `Nat`; the storage is a list of optional slots
  (`none` = deallocated).
* The fixed-capacity inline `Array<T, N>` is modelled as a `List` together
  with explicit capacity checks where the source `push`/`insert` would panic.
* Rust panics (failed `unwrap`, out-of-bounds indexing, assertion failures)
  are modelled by an outer `Option`: a `none` result means the source panics.
* Source loops that walk through the node graph are modelled with an explicit
  `fuel` parameter; exhausted fuel also yields `none`.  Theorems about these
  functions either hold for every fuel or take a successful run (`= some _`)
  as hypothesis.
-/

namespace RawBTree

/-- Knuth order of the B-trees (`src/lib.rs`: `pub const M: usize = 8`). -/
def M : Nat := 8

/-- Offset in a node (`src/node/mod.rs`, `struct Offset(usize)`): the source
uses `usize::MAX` as the *before-first* sentinel; we model the sentinel as a
separate constructor. -/
inductive Offset where
  | before : Offset
  | idx : Nat → Offset
deriving DecidableEq

namespace Offset

/-- `Offset::value`. -/
def value : Offset → Option Nat
  | .before => none
  | .idx n => some n

/-- `Offset::unwrap`: panics (`none`) on the sentinel. -/
def unwrapO : Offset → Option Nat
  | .before => none
  | .idx n => some n

/-- `Offset::incr`. -/
def incr : Offset → Offset
  | .before => .idx 0
  | .idx n => .idx (n + 1)

/-- `Offset::decr`.  In the source, `decr` on the sentinel (`usize::MAX`,
not `0`) would wrap to `usize::MAX - 1`; every call site guards against this
case, so the sentinel branch below is never exercised. -/
def decr : Offset → Offset
  | .before => .before
  | .idx 0 => .before
  | .idx (n + 1) => .idx n

/-- `Ord for Offset`: the sentinel compares less than every index. -/
def cmp : Offset → Offset → Ordering
  | .before, .before => .eq
  | .before, .idx _ => .lt
  | .idx _, .before => .gt
  | .idx a, .idx b => compare a b

/-- `PartialOrd<usize> for Offset`: the sentinel is less than every `usize`. -/
def cmpNat : Offset → Nat → Ordering
  | .before, _ => .lt
  | .idx a, n => compare a n

/-- `addr.offset >= other` on two offsets (`Ord for Offset`). -/
def ge (a b : Offset) : Bool := cmp a b ≠ .lt

/-- `offset < n` for a `usize` bound. -/
def ltNat (a : Offset) (n : Nat) : Bool := cmpNat a n == .lt

/-- `PartialEq<usize> for Offset`: true only away from the sentinel. -/
def eqNat (a : Offset) (n : Nat) : Bool := cmpNat a n == .eq

end Offset

/-- Decidable equality for `Except` results (used only to state and check
concrete witnesses). -/
instance {ε σ : Type} [DecidableEq ε] [DecidableEq σ] :
    DecidableEq (Except ε σ)
  | .ok a, .ok b => decidable_of_iff (a = b) (by simp)
  | .ok _, .error _ => isFalse (by simp)
  | .error _, .ok _ => isFalse (by simp)
  | .error a, .error b => decidable_of_iff (a = b) (by simp)

/-- `src/node/addr.rs`: an address is a node handle and an offset. -/
structure Address where
  node : Nat
  offset : Offset
deriving DecidableEq

/-- `src/node/mod.rs`, `enum Balance`. -/
inductive Balance where
  | balanced : Balance
  | overflow : Balance
  | underflow : Bool → Balance
deriving DecidableEq

/-- `src/node/mod.rs`, `struct WouldUnderflow`. -/
inductive WouldUnderflow where
  | mk : WouldUnderflow
deriving DecidableEq

/-- `src/node/internal.rs`, `struct Branch`: an item followed by the handle
of its right child. -/
structure Branch (α : Type) where
  item : α
  child : Nat
deriving DecidableEq

/-- `src/node/leaf.rs`, `struct Leaf`. -/
structure Leaf (α : Type) where
  parent : Option Nat
  items : List α
deriving DecidableEq

/-- `src/node/internal.rs`, `struct Internal`. -/
structure Internal (α : Type) where
  parent : Option Nat
  firstChild : Nat
  otherChildren : List (Branch α)
deriving DecidableEq

/-- `src/node/mod.rs`, `enum Node`. -/
inductive Node (α : Type) where
  | internal : Internal α → Node α
  | leaf : Leaf α → Node α
deriving DecidableEq

/-- `src/node/internal.rs`: underflow threshold `U = M / 2 - 1`. -/
def UNDERFLOW : Nat := M / 2 - 1

/-- Loop body of `binary_search_min` (`src/utils/mod.rs`): the `while !eq &&
j - i > 1` loop.  `fuel` bounds the number of iterations; the interval
`j - i` halves each round, so `s.length` fuel always suffices. -/
def bsmLoop (cmp : α → β → Ordering) (s : List α) (key : β) :
    Nat → Nat → Nat → Bool → Option (Nat × Bool)
  | 0, _, _, _ => none
  | fuel + 1, i, j, eq =>
    if eq || j - i ≤ 1 then some (i, eq)
    else
      match s[(i + j) / 2]? with
      | none => none
      | some x =>
        match cmp x key with
        | .gt => bsmLoop cmp s key fuel i ((i + j) / 2) eq
        | .eq => bsmLoop cmp s key fuel ((i + j) / 2) j true
        | .lt => bsmLoop cmp s key fuel ((i + j) / 2) j false

/-- `binary_search_min` (`src/utils/mod.rs`).  The source indexes
`sorted_slice[0]` *before* its emptiness test, so an empty slice panics
(outer `none`); `some none` is the source's `None` ("every element is
greater than the key"). -/
def binarySearchMin (cmp : α → β → Ordering) (s : List α) (key : β) :
    Option (Option (Nat × Bool)) :=
  match s[0]? with
  | none => none
  | some x0 =>
    if cmp x0 key == .gt then some none
    else
      match s[s.length - 1]? with
      | none => none
      | some xj =>
        if cmp xj key == .lt || cmp xj key == .eq then
          some (some (s.length - 1, cmp xj key == .eq))
        else
          (bsmLoop cmp s key s.length 0 (s.length - 1) (cmp x0 key == .eq)).map
            some

namespace Leaf

variable {α β : Type}

/-- `Leaf::new` (a singleton leaf). -/
def ofItem (parent : Option Nat) (item : α) : Leaf α := ⟨parent, [item]⟩

/-- `Leaf::item_count`. -/
def itemCount (l : Leaf α) : Nat := l.items.length

/-- `Leaf::is_overflowing`: more than `M` items. -/
def isOverflowing (l : Leaf α) : Bool := decide (l.itemCount > M)

/-- `Leaf::is_underflowing`: fewer than `M / 2 - 1` items. -/
def isUnderflowing (l : Leaf α) : Bool := decide (l.itemCount < M / 2 - 1)

/-- `Leaf::balance`. -/
def balance (l : Leaf α) : Balance :=
  if l.isOverflowing then .overflow
  else if l.isUnderflowing then .underflow l.items.isEmpty
  else .balanced

/-- `Leaf::item`: `items.get(offset)` guarded by `Offset::value`. -/
def item (l : Leaf α) (o : Offset) : Option α :=
  match o.value with
  | some i => l.items[i]?
  | none => none

/-- `Leaf::offset_of`, on top of `binary_search_min`; outer `none` = panic. -/
def offsetOf (cmp : α → β → Ordering) (l : Leaf α) (key : β) :
    Option (Except Offset Offset) :=
  match binarySearchMin cmp l.items key with
  | none => none
  | some (some (i, true)) => some (.ok (.idx i))
  | some (some (i, false)) => some (.error (.idx (i + 1)))
  | some none => some (.error (.idx 0))

/-- `Leaf::split`: requires an overflowing leaf (`assert!`), keeps items
`0..m`, pops the median at `m = (len - 1) / 2`, and moves `m+1..len` to a
fresh right leaf; asserts neither side underflows.  Returns
`(remaining_count, median, right_leaf)` plus the mutated left leaf. -/
def split (l : Leaf α) : Option (Nat × α × Leaf α × Leaf α) :=
  if !l.isOverflowing then none
  else
    let medianI := (l.items.length - 1) / 2
    let rightItems := l.items.drop (medianI + 1)
    let afterDrain := l.items.take (medianI + 1)
    match afterDrain.getLast? with
    | none => none
    | some median =>
      let left : Leaf α := ⟨l.parent, afterDrain.dropLast⟩
      let right : Leaf α := ⟨l.parent, rightItems⟩
      if left.isUnderflowing || right.isUnderflowing then none
      else some (left.items.length, median, right, left)

/-- `Leaf::append`: push the separator then all of `other`'s items; panics
(`none`) if capacity `M + 1` would be exceeded. -/
def append (l : Leaf α) (separator : α) (other : Leaf α) :
    Option (Offset × Leaf α) :=
  if l.items.length + 1 + other.items.length > M + 1 then none
  else some (.idx l.items.length, ⟨l.parent, l.items ++ separator :: other.items⟩)

/-- `Leaf::push_left`: insert at the front (capacity `M + 1`). -/
def pushLeft (l : Leaf α) (item : α) : Option (Leaf α) :=
  if l.items.length + 1 > M + 1 then none
  else some ⟨l.parent, item :: l.items⟩

/-- `Leaf::pop_left`: refuse when `len < M / 2` would underflow the leaf. -/
def popLeft (l : Leaf α) : Except WouldUnderflow (α × Leaf α) :=
  if l.itemCount < M / 2 then .error .mk
  else
    match l.items with
    | [] => .error .mk
    | x :: rest => .ok (x, ⟨l.parent, rest⟩)

/-- `Leaf::push_right`: append at the back (capacity `M + 1`), returning the
offset of the pushed item. -/
def pushRight (l : Leaf α) (item : α) : Option (Offset × Leaf α) :=
  if l.items.length + 1 > M + 1 then none
  else some (.idx l.items.length, ⟨l.parent, l.items ++ [item]⟩)

/-- `Leaf::pop_right`: refuse when `len < M / 2`; otherwise pop the last
item.  Note the returned offset is `items.len()` taken *before* the pop,
exactly as in the source. -/
def popRight (l : Leaf α) : Except WouldUnderflow (Offset × α × Leaf α) :=
  if l.itemCount < M / 2 then .error .mk
  else
    match l.items.getLast? with
    | none => .error .mk
    | some x => .ok (.idx l.items.length, x, ⟨l.parent, l.items.dropLast⟩)

/-- `Leaf::insert` at a given offset; panics on the sentinel, out-of-bounds,
or a full backing array. -/
def insert (l : Leaf α) (o : Offset) (item : α) : Option (Leaf α) :=
  match o.value with
  | none => none
  | some i =>
    if i > l.items.length then none
    else if l.items.length ≥ M + 1 then none
    else some ⟨l.parent, l.items.insertIdx i item⟩

/-- `Leaf::remove` at a given offset; panics on the sentinel or
out-of-bounds. -/
def remove (l : Leaf α) (o : Offset) : Option (α × Leaf α) :=
  match o.value with
  | none => none
  | some i =>
    match l.items[i]? with
    | none => none
    | some x => some (x, ⟨l.parent, l.items.eraseIdx i⟩)

/-- `Leaf::remove_last` (`pop().unwrap()`). -/
def removeLast (l : Leaf α) : Option (α × Leaf α) :=
  match l.items.getLast? with
  | none => none
  | some x => some (x, ⟨l.parent, l.items.dropLast⟩)

end Leaf

namespace Internal

variable {α β : Type}

/-- `Internal::binary`: a single item and two children. -/
def binary (parent : Option Nat) (leftId : Nat) (median : α) (rightId : Nat) :
    Internal α :=
  ⟨parent, leftId, [⟨median, rightId⟩]⟩

/-- `Internal::item_count`. -/
def itemCount (n : Internal α) : Nat := n.otherChildren.length

/-- `Internal::child_count`. -/
def childCount (n : Internal α) : Nat := 1 + n.itemCount

/-- `Internal::is_overflowing`: at least `M` items. -/
def isOverflowing (n : Internal α) : Bool := decide (n.itemCount ≥ M)

/-- `Internal::is_underflowing`: fewer than `UNDERFLOW` items. -/
def isUnderflowing (n : Internal α) : Bool := decide (n.itemCount < UNDERFLOW)

/-- `Internal::balance`. -/
def balance (n : Internal α) : Balance :=
  if n.isOverflowing then .overflow
  else if n.isUnderflowing then .underflow n.otherChildren.isEmpty
  else .balanced

/-- `Internal::child_index`: reverse lookup of a child handle. -/
def childIndex (n : Internal α) (id : Nat) : Option Nat :=
  if n.firstChild = id then some 0
  else
    match n.otherChildren.findIdx? (fun b => b.child = id) with
    | some i => some (i + 1)
    | none => none

/-- `Internal::child_id`; panics (`none`) when out of range. -/
def childId (n : Internal α) (index : Nat) : Option Nat :=
  if index = 0 then some n.firstChild
  else (n.otherChildren[index - 1]?).map (·.child)

/-- `Internal::child_id_opt`. -/
def childIdOpt (n : Internal α) (index : Nat) : Option Nat :=
  if index = 0 then some n.firstChild
  else (n.otherChildren[index - 1]?).map (·.child)

/-- `Internal::item`: note the source uses `offset.unwrap()` here, so the
sentinel panics (outer `none`); `some none` is a plain out-of-bounds `None`. -/
def item (n : Internal α) (o : Offset) : Option (Option α) :=
  match o.value with
  | none => none
  | some i => some ((n.otherChildren[i]?).map (·.item))

/-- `Internal::offset_of`: `Ok` on an exact hit, otherwise the index and
handle of the child that may contain the key. -/
def offsetOf (cmp : α → β → Ordering) (n : Internal α) (key : β) :
    Option (Except (Nat × Nat) Offset) :=
  match binarySearchMin (fun b k => cmp b.item k) n.otherChildren key with
  | none => none
  | some (some (i, true)) => some (.ok (.idx i))
  | some (some (i, false)) =>
    match n.otherChildren[i]? with
    | none => none
    | some b => some (.error (i + 1, b.child))
  | some none => some (.error (0, n.firstChild))

/-- `Internal::insert` of a branch at a given offset; panics on sentinel,
out-of-bounds, or a full backing array (capacity `M`). -/
def insert (n : Internal α) (o : Offset) (item : α) (rightNodeId : Nat) :
    Option (Internal α) :=
  match o.value with
  | none => none
  | some i =>
    if i > n.otherChildren.length then none
    else if n.otherChildren.length ≥ M then none
    else some ⟨n.parent, n.firstChild, n.otherChildren.insertIdx i ⟨item, rightNodeId⟩⟩

/-- `Internal::replace` the item at a given offset, returning the old one. -/
def replace (n : Internal α) (o : Offset) (item : α) :
    Option (α × Internal α) :=
  match o.value with
  | none => none
  | some i =>
    match n.otherChildren[i]? with
    | none => none
    | some b =>
      some (b.item, ⟨n.parent, n.firstChild, n.otherChildren.set i ⟨item, b.child⟩⟩)

/-- `Internal::split`: mirrors the leaf split; the right node inherits
`first_child` from the median branch.  Asserts overflow before and no
underflow after. -/
def split (n : Internal α) : Option (Nat × α × Internal α × Internal α) :=
  if !n.isOverflowing then none
  else
    let medianI := (n.otherChildren.length - 1) / 2
    let rightOther := n.otherChildren.drop (medianI + 1)
    let afterDrain := n.otherChildren.take (medianI + 1)
    match afterDrain.getLast? with
    | none => none
    | some median =>
      let left : Internal α := ⟨n.parent, n.firstChild, afterDrain.dropLast⟩
      let right : Internal α := ⟨n.parent, median.child, rightOther⟩
      if left.isUnderflowing || right.isUnderflowing then none
      else some (left.otherChildren.length, median.item, right, left)

/-- `Internal::merge`: removes the branch at `left_index`, and returns
`(offset, left_id, right_id, separator, balance-after-removal)` together
with the mutated node.  As in the source, `child_id` is computed *after* the
removal (the result is the same child). -/
def merge (n : Internal α) (leftIndex : Nat) :
    Option (Nat × Nat × Nat × α × Balance × Internal α) :=
  match n.otherChildren[leftIndex]? with
  | none => none
  | some branch =>
    let n' : Internal α := ⟨n.parent, n.firstChild, n.otherChildren.eraseIdx leftIndex⟩
    match n'.childId leftIndex with
    | none => none
    | some leftId => some (leftIndex, leftId, branch.child, branch.item, n'.balance, n')

/-- `Internal::push_left`: the given child becomes `first_child`, the old
`first_child` moves into the new front branch. -/
def pushLeft (n : Internal α) (item : α) (childId : Nat) : Option (Internal α) :=
  if n.otherChildren.length + 1 > M then none
  else some ⟨n.parent, childId, ⟨item, n.firstChild⟩ :: n.otherChildren⟩

/-- `Internal::pop_left`: refuse when `item_count ≤ UNDERFLOW`. -/
def popLeft (n : Internal α) : Except WouldUnderflow (α × Nat × Internal α) :=
  if n.itemCount ≤ UNDERFLOW then .error .mk
  else
    match n.otherChildren with
    | [] => .error .mk
    | first :: rest => .ok (first.item, n.firstChild, ⟨n.parent, first.child, rest⟩)

/-- `Internal::push_right`. -/
def pushRight (n : Internal α) (item : α) (childId : Nat) :
    Option (Offset × Internal α) :=
  if n.otherChildren.length + 1 > M then none
  else some (.idx n.otherChildren.length,
    ⟨n.parent, n.firstChild, n.otherChildren ++ [⟨item, childId⟩]⟩)

/-- `Internal::pop_right`: refuse when `item_count ≤ UNDERFLOW`.  As in the
source, the returned offset is `other_children.len()` taken *before* the
pop. -/
def popRight (n : Internal α) :
    Except WouldUnderflow (Offset × α × Nat × Internal α) :=
  if n.itemCount ≤ UNDERFLOW then .error .mk
  else
    match n.otherChildren.getLast? with
    | none => .error .mk
    | some last =>
      .ok (.idx n.otherChildren.length, last.item, last.child,
        ⟨n.parent, n.firstChild, n.otherChildren.dropLast⟩)

/-- `Internal::append`: push a branch `(separator, other.first_child)` then
all of `other`'s branches (capacity `M`). -/
def append (n : Internal α) (separator : α) (other : Internal α) :
    Option (Offset × Internal α) :=
  if n.otherChildren.length + 1 + other.otherChildren.length > M then none
  else some (.idx n.otherChildren.length,
    ⟨n.parent, n.firstChild,
      n.otherChildren ++ ⟨separator, other.firstChild⟩ :: other.otherChildren⟩)

end Internal

/-- Result of `Node::leaf_remove`'s `Some` case. -/
inductive LeafRemoveResult (α : Type) where
  | removed : α → Leaf α → LeafRemoveResult α
  | descend : Nat → LeafRemoveResult α
deriving DecidableEq

namespace Node

variable {α β : Type}

/-- `Node::binary`. -/
def binary (parent : Option Nat) (leftId : Nat) (median : α) (rightId : Nat) :
    Node α :=
  .internal (Internal.binary parent leftId median rightId)

/-- `Node::leaf` (a fresh singleton leaf). -/
def leafOfItem (parent : Option Nat) (item : α) : Node α :=
  .leaf (Leaf.ofItem parent item)

/-- `Node::parent`. -/
def parent : Node α → Option Nat
  | .internal n => n.parent
  | .leaf l => l.parent

/-- `Node::set_parent`. -/
def setParent : Node α → Option Nat → Node α
  | .internal n, p => .internal ⟨p, n.firstChild, n.otherChildren⟩
  | .leaf l, p => .leaf ⟨p, l.items⟩

/-- `Node::item_count`. -/
def itemCount : Node α → Nat
  | .internal n => n.itemCount
  | .leaf l => l.itemCount

/-- `Node::child_count` (0 for leaves). -/
def childCount : Node α → Nat
  | .internal n => n.childCount
  | .leaf _ => 0

/-- `Node::child_index` (always `None` on leaves). -/
def childIndex : Node α → Nat → Option Nat
  | .internal n, id => n.childIndex id
  | .leaf _, _ => none

/-- `Node::child_id`; panics (`none`) on a leaf. -/
def childId : Node α → Nat → Option Nat
  | .internal n, index => n.childId index
  | .leaf _, _ => none

/-- `Node::child_id_opt`. -/
def childIdOpt : Node α → Nat → Option Nat
  | .internal n, index => n.childIdOpt index
  | .leaf _, _ => none

/-- `Node::balance`. -/
def balance : Node α → Balance
  | .internal n => n.balance
  | .leaf l => l.balance

/-- `Node::is_underflowing`. -/
def isUnderflowing : Node α → Bool
  | .internal n => n.isUnderflowing
  | .leaf l => l.isUnderflowing

/-- `Node::is_overflowing`. -/
def isOverflowing : Node α → Bool
  | .internal n => n.isOverflowing
  | .leaf l => l.isOverflowing

/-- `Node::item`; the internal variant panics on the sentinel offset. -/
def item : Node α → Offset → Option (Option α)
  | .internal n, o => n.item o
  | .leaf l, o => some (l.item o)

/-- `item_mut(offset).unwrap()` followed by `mem::swap`/`mem::replace`:
returns the previous item and the updated node; `none` when the source
unwraps a missing item (panic). -/
def swapItem : Node α → Offset → α → Option (α × Node α)
  | .internal n, o, x =>
    (n.replace o x).map (fun (old, n') => (old, .internal n'))
  | .leaf l, o, x =>
    match o.value with
    | none => none
    | some i =>
      match l.items[i]? with
      | none => none
      | some old => some (old, .leaf ⟨l.parent, l.items.set i x⟩)

/-- `Node::offset_of`: `Ok offset` on a hit, otherwise the child index and
the optional child handle (`none` in a leaf). -/
def offsetOf (cmp : α → β → Ordering) : Node α → β →
    Option (Except (Nat × Option Nat) Offset)
  | .internal n, key =>
    match n.offsetOf cmp key with
    | none => none
    | some (.ok o) => some (.ok o)
    | some (.error (i, childId)) => some (.error (i, some childId))
  | .leaf l, key =>
    match l.offsetOf cmp key with
    | none => none
    | some (.ok o) => some (.ok o)
    | some (.error o) =>
      match o.value with
      | none => none
      | some i => some (.error (i, none))

/-- `Node::split`: dispatch to the variant split, rewrapping the right
node. -/
def split : Node α → Option (Nat × α × Node α × Node α)
  | .internal n =>
    (n.split).map (fun (len, median, right, left) =>
      (len, median, .internal right, .internal left))
  | .leaf l =>
    (l.split).map (fun (len, median, right, left) =>
      (len, median, .leaf right, .leaf left))

/-- `Node::merge`; panics (`none`) on a leaf. -/
def merge : Node α → Nat → Option (Nat × Nat × Nat × α × Balance × Node α)
  | .internal n, leftIndex =>
    (n.merge leftIndex).map (fun (o, l, r, sep, bal, n') =>
      (o, l, r, sep, bal, .internal n'))
  | .leaf _, _ => none

/-- `Node::append`; panics (`none`) on incompatible variants. -/
def append : Node α → α → Node α → Option (Offset × Node α)
  | .internal n, separator, .internal other =>
    (n.append separator other).map (fun (o, n') => (o, .internal n'))
  | .leaf l, separator, .leaf other =>
    (l.append separator other).map (fun (o, l') => (o, .leaf l'))
  | _, _, _ => none

/-- `Node::push_left`; an internal node unwraps the child handle. -/
def pushLeft : Node α → α → Option Nat → Option (Node α)
  | .internal n, item, some childId => (n.pushLeft item childId).map .internal
  | .internal _, _, none => none
  | .leaf l, item, _ => (l.pushLeft item).map .leaf

/-- `Node::pop_left`. -/
def popLeft : Node α → Except WouldUnderflow (α × Option Nat × Node α)
  | .internal n =>
    match n.popLeft with
    | .error e => .error e
    | .ok (item, childId, n') => .ok (item, some childId, .internal n')
  | .leaf l =>
    match l.popLeft with
    | .error e => .error e
    | .ok (item, l') => .ok (item, none, .leaf l')

/-- `Node::push_right`; an internal node unwraps the child handle. -/
def pushRight : Node α → α → Option Nat → Option (Offset × Node α)
  | .internal n, item, some childId =>
    (n.pushRight item childId).map (fun (o, n') => (o, .internal n'))
  | .internal _, _, none => none
  | .leaf l, item, _ =>
    (l.pushRight item).map (fun (o, l') => (o, .leaf l'))

/-- `Node::pop_right`. -/
def popRight : Node α → Except WouldUnderflow (Offset × α × Option Nat × Node α)
  | .internal n =>
    match n.popRight with
    | .error e => .error e
    | .ok (o, item, childId, n') => .ok (o, item, some childId, .internal n')
  | .leaf l =>
    match l.popRight with
    | .error e => .error e
    | .ok (o, item, l') => .ok (o, item, none, .leaf l')

/-- `Node::insert`; an internal node unwraps the right-child handle. -/
def insert : Node α → Offset → α → Option Nat → Option (Node α)
  | .internal n, o, item, some rightChildId =>
    (n.insert o item rightChildId).map .internal
  | .internal _, _, _, none => none
  | .leaf l, o, item, _ => (l.insert o item).map .leaf

/-- `Node::replace`; panics (`none`) on a leaf. -/
def replace : Node α → Offset → α → Option (α × Node α)
  | .internal n, o, item =>
    (n.replace o item).map (fun (old, n') => (old, .internal n'))
  | .leaf _, _, _ => none

/-- `Node::leaf_remove`: `some none` when the offset names no item,
`removed` when a leaf drops the item, `descend` with the left child handle
when the offset names an item of an internal node. -/
def leafRemove : Node α → Offset → Option (Option (LeafRemoveResult α))
  | .internal n, o =>
    if o.ltNat n.itemCount then
      match o.value with
      | none => none
      | some i => (n.childId i).map (fun c => some (.descend c))
    else some none
  | .leaf l, o =>
    if o.ltNat l.itemCount then
      (l.remove o).map (fun (x, l') => some (.removed x l'))
    else some none

/-- `Node::remove_rightmost_leaf`: `inl` pops the last item of a leaf,
`inr` is the handle of the rightmost child to descend into. -/
def removeRightmostLeaf : Node α → Option (Sum (α × Leaf α) Nat)
  | .internal n => (n.childId (n.childCount - 1)).map .inr
  | .leaf l => (l.removeLast).map .inl

/-- `Node::children` as a list of child handles (first child, then the
branch children in order). -/
def childrenList : Node α → List Nat
  | .internal n => n.firstChild :: n.otherChildren.map (·.child)
  | .leaf _ => []

/-- The items stored directly in a node, in offset order. -/
def itemsList : Node α → List α
  | .internal n => n.otherChildren.map (·.item)
  | .leaf l => l.items

end Node

/-- The node storage (`src/storage.rs`): the reference `BoxStorage` hands
out one heap pointer per node; we model it as an arena of slots, `none`
marking a deallocated node. -/
structure Store (α : Type) where
  slots : List (Option (Node α))
deriving DecidableEq

namespace Store

variable {α β : Type}

/-- `Storage::get`; `none` when dereferencing a deallocated handle. -/
def get? (s : Store α) (id : Nat) : Option (Node α) :=
  (s.slots[id]?).join

/-- Overwrite the node behind a (live) handle; models writing through
`Storage::get_mut`. -/
def set (s : Store α) (id : Nat) (n : Node α) : Store α :=
  ⟨s.slots.set id (some n)⟩

/-- `Storage::allocate_node`: fresh handle at the end of the arena. -/
def allocateNode (s : Store α) (n : Node α) : Store α × Nat :=
  (⟨s.slots ++ [some n]⟩, s.slots.length)

/-- Set the parent of each node in `children` to `p` (the loops in
`insert_node` and `merge`). -/
def setParents (s : Store α) (children : List Nat) (p : Nat) :
    Option (Store α) :=
  children.foldlM
    (fun s c => (s.get? c).map (fun n => s.set c (n.setParent (some p)))) s

/-- `Storage::insert_node`: allocate, then point every child's parent at the
new handle. -/
def insertNode (s : Store α) (n : Node α) : Option (Store α × Nat) :=
  let children := n.childrenList
  let (s', id) := s.allocateNode n
  (s'.setParents children id).map (fun s'' => (s'', id))

/-- `Storage::release_node`: deallocate, returning the owned node. -/
def releaseNode (s : Store α) (id : Nat) : Option (Node α × Store α) :=
  (s.get? id).map (fun n => (n, ⟨s.slots.set id none⟩))

end Store

/-- The tracked-address translation performed by `rebalance` after splitting
an overflowing node that has a parent (`src/balancing.rs`, `Overflow`,
`Some(parent_id)` branch): `id` is the split node, `medianOffset` the split
point, `offset` the position (`child_index(id)`) where the median was
inserted into the parent. -/
def splitAddrUpdate (addr : Address) (id parentId rightId : Nat)
    (medianOffset : Nat) (offset : Offset) : Option Address :=
  if addr.node = id then
    match addr.offset.cmpNat medianOffset with
    | .eq => some ⟨parentId, offset⟩
    | .gt =>
      match addr.offset.value with
      | some o => some ⟨rightId, .idx (o - medianOffset - 1)⟩
      | none => none
    | .lt => some addr
  else if addr.node = parentId ∧ addr.offset.ge offset then
    some ⟨addr.node, addr.offset.incr⟩
  else some addr

/-- The tracked-address translation performed by `rebalance` after splitting
an overflowing *root* (`src/balancing.rs`, `Overflow`, `None` branch): the
median became item 0 of the fresh binary root. -/
def splitRootAddrUpdate (addr : Address) (id rightId rootId : Nat)
    (medianOffset : Nat) : Option Address :=
  if addr.node = id then
    match addr.offset.cmpNat medianOffset with
    | .eq => some ⟨rootId, .idx 0⟩
    | .gt =>
      match addr.offset.value with
      | some o => some ⟨rightId, .idx (o - medianOffset - 1)⟩
      | none => none
    | .lt => some addr
  else some addr

/-- The tracked-address translation of `try_rotate_left`
(`src/balancing.rs`): the right sibling's first item became the pivot, the
old pivot was pushed onto the right end of the deficient node at
`leftOffset`. -/
def rotateLeftAddrUpdate (addr : Address) (rightSiblingId id deficientChildId : Nat)
    (pivotOffset leftOffset : Offset) : Address :=
  if addr.node = rightSiblingId then
    if addr.offset.eqNat 0 then ⟨id, pivotOffset⟩
    else ⟨addr.node, addr.offset.decr⟩
  else if addr.node = id then
    if addr.offset = pivotOffset then ⟨deficientChildId, leftOffset⟩
    else addr
  else addr

/-- The tracked-address translation of `try_rotate_right`
(`src/balancing.rs`): the left sibling's last item (at `leftOffset`) became
the pivot, the old pivot was pushed onto the front of the deficient node. -/
def rotateRightAddrUpdate (addr : Address) (deficientChildId leftSiblingId id : Nat)
    (pivotOffset leftOffset : Offset) : Address :=
  if addr.node = deficientChildId then ⟨addr.node, addr.offset.incr⟩
  else if addr.node = leftSiblingId then
    if addr.offset = leftOffset then ⟨id, pivotOffset⟩
    else addr
  else if addr.node = id then
    if addr.offset = pivotOffset then ⟨deficientChildId, .idx 0⟩
    else addr
  else addr

/-- The tracked-address translation of `merge` (`src/balancing.rs`): the
parent's separator at `offset` moved to `leftOffset` in the merged node, an
address in the released right sibling shifts into the left sibling. -/
def mergeAddrUpdate (addr : Address) (id rightId : Nat) (offset : Nat)
    (leftId : Nat) (leftOffset : Offset) : Option Address :=
  if addr.node = id then
    match addr.offset.cmpNat offset with
    | .eq => some ⟨leftId, leftOffset⟩
    | .gt => some ⟨addr.node, addr.offset.decr⟩
    | .lt => some addr
  else if addr.node = rightId then
    match addr.offset.value, leftOffset.value with
    | some o, some lo => some ⟨leftId, .idx (o + lo + 1)⟩
    | _, _ => none
  else some addr

variable {α β : Type}

/-- `try_rotate_left` (`src/balancing.rs`): rotate through the parent `id`
to benefit the deficient child; returns `false` (with everything untouched)
when there is no right sibling or the sibling's `pop_left` would
underflow. -/
def tryRotateLeft (s : Store α) (id : Nat) (deficientChildIndex : Nat)
    (addr : Address) : Option (Bool × Store α × Address) :=
  let pivotOffset : Offset := .idx deficientChildIndex
  let rightSiblingIndex := deficientChildIndex + 1
  match s.get? id with
  | none => none
  | some node =>
    if rightSiblingIndex ≥ node.childCount then some (false, s, addr)
    else
      match node.childId rightSiblingIndex, node.childId deficientChildIndex with
      | some rightSiblingId, some deficientChildId =>
        match s.get? rightSiblingId with
        | none => none
        | some rs =>
          match rs.popLeft with
          | .error _ => some (false, s, addr)
          | .ok (value, optChildId, rs') =>
            let s := s.set rightSiblingId rs'
            match s.get? id with
            | none => none
            | some pnode =>
              match pnode.swapItem pivotOffset value with
              | none => none
              | some (pivotValue, pnode') =>
                let s := s.set id pnode'
                match s.get? deficientChildId with
                | none => none
                | some dc =>
                  match dc.pushRight pivotValue optChildId with
                  | none => none
                  | some (leftOffset, dc') =>
                    let s := s.set deficientChildId dc'
                    let addr' := rotateLeftAddrUpdate addr rightSiblingId id
                      deficientChildId pivotOffset leftOffset
                    match optChildId with
                    | some childId =>
                      match s.get? childId with
                      | none => none
                      | some c =>
                        some (true, s.set childId (c.setParent (some deficientChildId)), addr')
                    | none => some (true, s, addr')
      | _, _ => none

/-- `try_rotate_right` (`src/balancing.rs`): symmetric, using the left
sibling's `pop_right`. -/
def tryRotateRight (s : Store α) (id : Nat) (deficientChildIndex : Nat)
    (addr : Address) : Option (Bool × Store α × Address) :=
  if deficientChildIndex > 0 then
    let leftSiblingIndex := deficientChildIndex - 1
    let pivotOffset : Offset := .idx leftSiblingIndex
    match s.get? id with
    | none => none
    | some node =>
      match node.childId leftSiblingIndex, node.childId deficientChildIndex with
      | some leftSiblingId, some deficientChildId =>
        match s.get? leftSiblingId with
        | none => none
        | some ls =>
          match ls.popRight with
          | .error _ => some (false, s, addr)
          | .ok (leftOffset, value, optChildId, ls') =>
            let s := s.set leftSiblingId ls'
            match s.get? id with
            | none => none
            | some pnode =>
              match pnode.swapItem pivotOffset value with
              | none => none
              | some (pivotValue, pnode') =>
                let s := s.set id pnode'
                match s.get? deficientChildId with
                | none => none
                | some dc =>
                  match dc.pushLeft pivotValue optChildId with
                  | none => none
                  | some dc' =>
                    let s := s.set deficientChildId dc'
                    let addr' := rotateRightAddrUpdate addr deficientChildId
                      leftSiblingId id pivotOffset leftOffset
                    match optChildId with
                    | some childId =>
                      match s.get? childId with
                      | none => none
                      | some c =>
                        some (true, s.set childId (c.setParent (some deficientChildId)), addr')
                    | none => some (true, s, addr')
      | _, _ => none
  else some (false, s, addr)

/-- `merge` (`src/balancing.rs`): merge the deficient child with a direct
sibling (the left one when it exists), releasing the right of the two nodes
and reporting the parent's post-removal balance. -/
def mergeOp (s : Store α) (id : Nat) (deficientChildIndex : Nat)
    (addr : Address) : Option (Balance × Store α × Address) :=
  match s.get? id with
  | none => none
  | some parent =>
    let leftIndex :=
      if deficientChildIndex > 0 then deficientChildIndex - 1
      else deficientChildIndex
    match parent.merge leftIndex with
    | none => none
    | some (offset, leftId, rightId, separator, balance, parent') =>
      let s := s.set id parent'
      match s.releaseNode rightId with
      | none => none
      | some (rightNode, s) =>
        match s.setParents rightNode.childrenList leftId with
        | none => none
        | some s =>
          match s.get? leftId with
          | none => none
          | some leftNode =>
            match leftNode.append separator rightNode with
            | none => none
            | some (leftOffset, leftNode') =>
              let s := s.set leftId leftNode'
              match mergeAddrUpdate addr id rightId offset leftId leftOffset with
              | none => none
              | some addr' => some (balance, s, addr')

/-- The `loop` body of `rebalance` (`src/balancing.rs`): `bal` is the
`balance` variable of the source, threaded through iterations (recomputed
from the parent after an overflow insertion, or taken from `merge`'s return
value after a merge); `fuel` bounds the walk toward the root. -/
def rebalanceLoop (fuel : Nat) (s : Store α) (root : Option Nat) (id : Nat)
    (bal : Balance) (addr : Address) :
    Option (Store α × Option Nat × Option Address) :=
  match fuel with
  | 0 => none
  | fuel + 1 =>
    match bal with
    | .balanced => some (s, root, some addr)
    | .overflow =>
      match s.get? id with
      | none => none
      | some node =>
        if node.isUnderflowing then none
        else
          match node.split with
          | none => none
          | some (medianOffset, median, rightNode, leftNode) =>
            let s := s.set id leftNode
            match s.insertNode rightNode with
            | none => none
            | some (s, rightId) =>
              match s.get? id with
              | none => none
              | some cur =>
                match cur.parent with
                | some parentId =>
                  match s.get? parentId with
                  | none => none
                  | some parentNode =>
                    match parentNode.childIndex id with
                    | none => none
                    | some k =>
                      let offset : Offset := .idx k
                      match parentNode.insert offset median (some rightId) with
                      | none => none
                      | some parentNode' =>
                        let s := s.set parentId parentNode'
                        match splitAddrUpdate addr id parentId rightId medianOffset offset with
                        | none => none
                        | some addr' =>
                          rebalanceLoop fuel s root parentId parentNode'.balance addr'
                | none =>
                  let newRoot := Node.binary none id median rightId
                  match s.insertNode newRoot with
                  | none => none
                  | some (s, rootId) =>
                    match s.get? id with
                    | none => none
                    | some leftCur =>
                      let s := s.set id (leftCur.setParent (some rootId))
                      match s.get? rightId with
                      | none => none
                      | some rightCur =>
                        let s := s.set rightId (rightCur.setParent (some rootId))
                        match splitRootAddrUpdate addr id rightId rootId medianOffset with
                        | none => none
                        | some addr' => some (s, some rootId, some addr')
    | .underflow isEmpty =>
      match s.get? id with
      | none => none
      | some node =>
        match node.parent with
        | some parentId =>
          match (s.get? parentId).bind (fun p => p.childIndex id) with
          | none => none
          | some index =>
            match tryRotateLeft s parentId index addr with
            | none => none
            | some (true, s, addr) => some (s, root, some addr)
            | some (false, s, addr) =>
              match tryRotateRight s parentId index addr with
              | none => none
              | some (true, s, addr) => some (s, root, some addr)
              | some (false, s, addr) =>
                match mergeOp s parentId index addr with
                | none => none
                | some (newBalance, s, addr) =>
                  rebalanceLoop fuel s root parentId newBalance addr
        | none =>
          if isEmpty then
            match node.childIdOpt 0 with
            | some newRootId =>
              match s.get? newRootId with
              | none => none
              | some newRootNode =>
                let s := s.set newRootId (newRootNode.setParent none)
                let addr' :=
                  if addr.node = id then
                    Address.mk newRootId (.idx newRootNode.itemCount)
                  else addr
                match s.releaseNode id with
                | none => none
                | some (_, s) => some (s, some newRootId, some addr')
            | none =>
              match s.releaseNode id with
              | none => none
              | some (_, s) => some (s, none, none)
          else some (s, root, some addr)

/-- `rebalance` (`src/balancing.rs`): compute the initial balance of the
mutated node and run the repair loop; returns the possibly-new root and the
translated tracked address. -/
def rebalance (fuel : Nat) (s : Store α) (root : Option Nat) (id : Nat)
    (addr : Address) : Option (Store α × Option Nat × Option Address) :=
  match s.get? id with
  | none => none
  | some node => rebalanceLoop fuel s root id node.balance addr

namespace Store

/-- `Storage::address_in`: descend from `id`, binary-searching each node; a
hit yields `Ok`, a leaf miss yields the insertion-gap address `Err`. -/
def addressIn (fuel : Nat) (s : Store α) (id : Nat)
    (cmp : α → β → Ordering) (key : β) :
    Option (Except Address Address) :=
  match fuel with
  | 0 => none
  | fuel + 1 =>
    match s.get? id with
    | none => none
    | some node =>
      match node.offsetOf cmp key with
      | none => none
      | some (.ok offset) => some (.ok ⟨id, offset⟩)
      | some (.error (offset, none)) => some (.error ⟨id, .idx offset⟩)
      | some (.error (_, some childId)) => addressIn fuel s childId cmp key

/-- Inner climbing loop of `next_item_or_back_address`
(`src/storage.rs`). -/
def nioClimb (fuel : Nat) (s : Store α) (addr orig : Address) :
    Option (Option Address) :=
  match fuel with
  | 0 => none
  | fuel + 1 =>
    match s.get? addr.node with
    | none => none
    | some node =>
      if addr.offset.ltNat node.itemCount then some (some addr)
      else
        match node.parent with
        | some parentId =>
          match (s.get? parentId).bind (fun p => p.childIndex addr.node) with
          | none => none
          | some ci => nioClimb fuel s ⟨parentId, .idx ci⟩ orig
        | none => some (some orig)

/-- Outer descending loop of `next_item_or_back_address`
(`src/storage.rs`): descend to the leftmost leaf on the right; the
`offset.unwrap()` panics (`none`) on the sentinel. -/
def nioDescend (fuel : Nat) (s : Store α) (addr orig : Address) :
    Option (Option Address) :=
  match fuel with
  | 0 => none
  | fuel + 1 =>
    match s.get? addr.node with
    | none => none
    | some node =>
      match addr.offset.value with
      | none => none
      | some o =>
        match node.childIdOpt o with
        | some childId => nioDescend fuel s ⟨childId, .idx 0⟩ orig
        | none => nioClimb fuel s addr orig

/-- `Storage::next_item_or_back_address`: advance to the next occupied
offset, or to the unique back address marking the gap. -/
def nextItemOrBackAddress (fuel : Nat) (s : Store α) (addr : Address) :
    Option (Option Address) :=
  match s.get? addr.node with
  | none => none
  | some node =>
    match addr.offset.cmpNat node.itemCount with
    | .gt => some none
    | .lt =>
      let addr' : Address := ⟨addr.node, addr.offset.incr⟩
      nioDescend fuel s addr' addr'
    | .eq => nioDescend fuel s addr addr

/-- `Storage::remove_rightmost_leaf_of`: walk down the rightmost spine and
pop the last item of the final leaf, returning the item and the leaf's
handle. -/
def removeRightmostLeafOf (fuel : Nat) (s : Store α) (id : Nat) :
    Option (α × Nat × Store α) :=
  match fuel with
  | 0 => none
  | fuel + 1 =>
    match s.get? id with
    | none => none
    | some node =>
      match node.removeRightmostLeaf with
      | none => none
      | some (.inl (item, leaf')) => some (item, id, s.set id (.leaf leaf'))
      | some (.inr childId) => removeRightmostLeafOf fuel s childId

/-- `Storage::insert_exactly_at`: insert at a leaf address then rebalance;
with no address, promote a fresh singleton leaf root. -/
def insertExactlyAt (fuel : Nat) (s : Store α) (root : Option Nat)
    (addr : Option Address) (item : α) (optRightId : Option Nat) :
    Option (Store α × Option Nat × Option Address) :=
  match addr with
  | some addr =>
    match s.get? addr.node with
    | none => none
    | some node =>
      match node.insert addr.offset item optRightId with
      | none => none
      | some node' => rebalance fuel (s.set addr.node node') root addr.node addr
  | none =>
    match s.insertNode (Node.leafOfItem none item) with
    | none => none
    | some (s, id) => some (s, some id, some ⟨id, .idx 0⟩)

/-- `Storage::replace_at`: `mem::replace` on `item_mut(addr.offset)`,
returning the previous item. -/
def replaceAt (s : Store α) (addr : Address) (item : α) :
    Option (α × Store α) :=
  match s.get? addr.node with
  | none => none
  | some n =>
    (n.swapItem addr.offset item).map (fun (old, n') => (old, s.set addr.node n'))

/-- `Storage::remove_at`: remove from a leaf and rebalance, or (for an
internal node) swap in the rightmost item of the left subtree and rebalance
at the affected leaf.  `some none` is the source's `None` (nothing at the
address); the quadruple is `RemovedItem` plus the updated store. -/
def removeAt (fuel : Nat) (s : Store α) (root : Option Nat) (addr : Address) :
    Option (Option (Store α × Option Nat × α × Option Address)) :=
  match s.get? addr.node with
  | none => none
  | some node =>
    match node.leafRemove addr.offset with
    | none => none
    | some none => some none
    | some (some (.removed item leaf')) =>
      let s := s.set addr.node (.leaf leaf')
      match rebalance fuel s root addr.node addr with
      | none => none
      | some (s, newRoot, newAddr) => some (some (s, newRoot, item, newAddr))
    | some (some (.descend leftChildId)) =>
      match nextItemOrBackAddress fuel s addr with
      | none => none
      | some none => none
      | some (some newAddr) =>
        match removeRightmostLeafOf fuel s leftChildId with
        | none => none
        | some (separator, leafId, s) =>
          match s.get? addr.node with
          | none => none
          | some n =>
            match n.replace addr.offset separator with
            | none => none
            | some (item, n') =>
              let s := s.set addr.node n'
              match rebalance fuel s root leafId newAddr with
              | none => none
              | some (s, newRoot, newAddr) => some (some (s, newRoot, item, newAddr))

end Store

/-- The tree (`src/lib.rs`, `struct RawBTree`): storage, optional root
handle, and the item count. -/
structure Tree (α : Type) where
  nodes : Store α
  root : Option Nat
  len : Nat
deriving DecidableEq

namespace Tree

/-- `RawBTree::new`. -/
def new : Tree α := ⟨⟨[]⟩, none, 0⟩

/-- `RawBTree::is_empty`: true iff there is no root handle. -/
def isEmpty (t : Tree α) : Bool := t.root.isNone

/-- `RawBTree::address_of`: search from the root; `Err none` on an empty
tree, otherwise `address_in` with its gap address wrapped in `some`. -/
def addressOf (fuel : Nat) (t : Tree α) (cmp : α → β → Ordering) (key : β) :
    Option (Except (Option Address) Address) :=
  match t.root with
  | some id =>
    (Store.addressIn fuel t.nodes id cmp key).map
      (fun r => match r with
        | .ok a => .ok a
        | .error a => .error (some a))
  | none => some (.error none)

/-- `RawBTree::get_at`: the item at an address (`none` = panic on a
deallocated node, `some none` = no item there). -/
def getAt (t : Tree α) (addr : Address) : Option (Option α) :=
  match t.nodes.get? addr.node with
  | none => none
  | some n => n.item addr.offset

/-- `RawBTree::get`. -/
def get (fuel : Nat) (t : Tree α) (cmp : α → β → Ordering) (key : β) :
    Option (Option α) :=
  match t.addressOf fuel cmp key with
  | none => none
  | some (.error _) => some none
  | some (.ok addr) => t.getAt addr

/-- `RawBTree::insert`: replace in place on a hit (length unchanged),
otherwise insert at the gap address and bump the length. -/
def insert (fuel : Nat) (t : Tree α) (cmp : α → α → Ordering) (item : α) :
    Option (Tree α × Option α) :=
  match t.addressOf fuel cmp item with
  | none => none
  | some (.ok addr) =>
    match t.nodes.replaceAt addr item with
    | none => none
    | some (old, s) => some ({ t with nodes := s }, some old)
  | some (.error addr) =>
    match Store.insertExactlyAt fuel t.nodes t.root addr item none with
    | none => none
    | some (s, root, _) => some (⟨s, root, t.len + 1⟩, none)

/-- `RawBTree::remove`: on a hit, `remove_at` (whose `None` is unwrapped,
hence a panic) and decrement the length; otherwise `None`. -/
def remove (fuel : Nat) (t : Tree α) (cmp : α → β → Ordering) (key : β) :
    Option (Tree α × Option α) :=
  match t.addressOf fuel cmp key with
  | none => none
  | some (.ok addr) =>
    match Store.removeAt fuel t.nodes t.root addr with
    | none => none
    | some none => none
    | some (some (s, newRoot, item, _)) =>
      some (⟨s, newRoot, t.len - 1⟩, some item)
  | some (.error _) => some (t, none)

end Tree

/-- In-order list of the elements stored in the subtree rooted at `id`
(used to state the claims; `none` when the walk meets a dangling handle or
runs out of fuel). -/
def elemsNode (fuel : Nat) (s : Store α) (id : Nat) : Option (List α) :=
  match fuel with
  | 0 => none
  | fuel + 1 =>
    match s.get? id with
    | none => none
    | some (.leaf l) => some l.items
    | some (.internal n) =>
      match elemsNode fuel s n.firstChild with
      | none => none
      | some first =>
        (n.otherChildren.mapM
            (fun b => (elemsNode fuel s b.child).map (fun es => b.item :: es))).map
          (fun parts => first ++ parts.flatten)

/-- In-order list of all elements of a tree. -/
def Tree.elems (fuel : Nat) (t : Tree α) : Option (List α) :=
  match t.root with
  | none => some []
  | some id => elemsNode fuel t.nodes id

namespace Store

/-- Inner climbing loop of `next_item_address` (`src/storage.rs`): return
the current address when it is occupied, otherwise re-express it in the
parent; at the root the walk ends with `None`. -/
def niaClimb (fuel : Nat) (s : Store α) (addr : Address) :
    Option (Option Address) :=
  match fuel with
  | 0 => none
  | fuel + 1 =>
    match s.get? addr.node with
    | none => none
    | some node =>
      if addr.offset.ltNat node.itemCount then some (some addr)
      else
        match node.parent with
        | some parentId =>
          match (s.get? parentId).bind (fun p => p.childIndex addr.node) with
          | none => none
          | some ci => niaClimb fuel s ⟨parentId, .idx ci⟩
        | none => some none

/-- Outer descending loop of `next_item_address` (`src/storage.rs`):
descend to offset 0 of the child at the current offset while one exists
(the `offset.unwrap()` panics on the sentinel). -/
def niaDescend (fuel : Nat) (s : Store α) (addr : Address) :
    Option (Option Address) :=
  match fuel with
  | 0 => none
  | fuel + 1 =>
    match s.get? addr.node with
    | none => none
    | some node =>
      match addr.offset.value with
      | none => none
      | some o =>
        match node.childIdOpt o with
        | some childId => niaDescend fuel s ⟨childId, .idx 0⟩
        | none => niaClimb fuel s addr

/-- `Storage::next_item_address`: the next occupied offset in in-order
traversal, or `None` at the end. -/
def nextItemAddress (fuel : Nat) (s : Store α) (addr : Address) :
    Option (Option Address) :=
  match s.get? addr.node with
  | none => none
  | some node =>
    match addr.offset.cmpNat node.itemCount with
    | .gt => some none
    | .lt => niaDescend fuel s ⟨addr.node, addr.offset.incr⟩
    | .eq => niaDescend fuel s addr

/-- Inner loop of `previous_item_address` (`src/storage.rs`): decrement and
return when the offset is positive, otherwise climb to the parent. -/
def piaClimb (fuel : Nat) (s : Store α) (addr : Address) :
    Option (Option Address) :=
  match fuel with
  | 0 => none
  | fuel + 1 =>
    if (addr.offset.cmpNat 0) == .gt then
      some (some ⟨addr.node, addr.offset.decr⟩)
    else
      match s.get? addr.node with
      | none => none
      | some node =>
        match node.parent with
        | some parentId =>
          match (s.get? parentId).bind (fun p => p.childIndex addr.node) with
          | none => none
          | some ci => piaClimb fuel s ⟨parentId, .idx ci⟩
        | none => some none

/-- Outer loop of `previous_item_address` (`src/storage.rs`): descend to
the one-past-the-end offset of the child at the current offset while one
exists. -/
def piaDescend (fuel : Nat) (s : Store α) (addr : Address) :
    Option (Option Address) :=
  match fuel with
  | 0 => none
  | fuel + 1 =>
    match s.get? addr.node with
    | none => none
    | some node =>
      match addr.offset.value with
      | none => none
      | some o =>
        match node.childIdOpt o with
        | some childId =>
          match s.get? childId with
          | none => none
          | some child => piaDescend fuel s ⟨childId, .idx child.itemCount⟩
        | none => piaClimb fuel s addr

/-- `Storage::previous_item_address`: the previous occupied offset in
in-order traversal, or `None` at the start. -/
def previousItemAddress (fuel : Nat) (s : Store α) (addr : Address) :
    Option (Option Address) :=
  piaDescend fuel s addr

end Store

namespace Tree

/-- Loop of `RawBTree::first_item_address`: descend through child 0 while
one exists, ending at offset 0 of the leftmost leaf. -/
def firstItemAddressLoop (fuel : Nat) (s : Store α) (id : Nat) :
    Option Address :=
  match fuel with
  | 0 => none
  | fuel + 1 =>
    match s.get? id with
    | none => none
    | some node =>
      match node.childIdOpt 0 with
      | some childId => firstItemAddressLoop fuel s childId
      | none => some ⟨id, .idx 0⟩

/-- `RawBTree::first_item_address` (`some none` on an empty tree; outer
`none` = panic or fuel exhaustion). -/
def firstItemAddress (fuel : Nat) (t : Tree α) : Option (Option Address) :=
  match t.root with
  | none => some none
  | some id => (firstItemAddressLoop fuel t.nodes id).map some

/-- Loop of `RawBTree::last_item_address`: descend through the last child
while one exists; `(index - 1)` underflows (panics) on an empty leaf. -/
def lastItemAddressLoop (fuel : Nat) (s : Store α) (id : Nat) :
    Option Address :=
  match fuel with
  | 0 => none
  | fuel + 1 =>
    match s.get? id with
    | none => none
    | some node =>
      match node.childIdOpt node.itemCount with
      | some childId => lastItemAddressLoop fuel s childId
      | none =>
        match node.itemCount with
        | 0 => none
        | index + 1 => some ⟨id, .idx index⟩

/-- `RawBTree::last_item_address`. -/
def lastItemAddress (fuel : Nat) (t : Tree α) : Option (Option Address) :=
  match t.root with
  | none => some none
  | some id => (lastItemAddressLoop fuel t.nodes id).map some

/-- The forward iterator loop (`Iter::next` in `src/lib.rs`): starting from
the address of the next item, yield `len` items, following
`next_item_address` after each one. -/
def iterCollect (fuel : Nat) (s : Store α) :
    Nat → Option Address → Option (List α)
  | 0, _ => some []
  | _ + 1, none => some []
  | n + 1, some addr =>
    match s.get? addr.node with
    | none => none
    | some node =>
      match node.item addr.offset with
      | none => none
      | some none => none
      | some (some x) =>
        match Store.nextItemAddress fuel s addr with
        | none => none
        | some next => (iterCollect fuel s n next).map (fun xs => x :: xs)

/-- All items yielded by `iter()` in order. -/
def iterList (fuel : Nat) (t : Tree α) : Option (List α) :=
  match t.firstItemAddress fuel with
  | none => none
  | some a0 => iterCollect fuel t.nodes t.len a0

/-- The backward iterator loop (`Iter::next_back` in `src/lib.rs`): `end`
is `none` before the first step (then `last_item_address().unwrap()` runs),
afterwards the previously yielded address (then
`previous_item_address(end).unwrap()` runs). -/
def iterBackCollect (fuel : Nat) (t : Tree α) :
    Nat → Option Address → Option (List α)
  | 0, _ => some []
  | n + 1, endAddr =>
    match (match endAddr with
      | some a => Store.previousItemAddress fuel t.nodes a
      | none => t.lastItemAddress fuel) with
    | none => none
    | some none => none
    | some (some addr) =>
      match t.getAt addr with
      | none => none
      | some none => none
      | some (some x) =>
        (iterBackCollect fuel t n (some addr)).map (fun xs => x :: xs)

/-- All items yielded by `iter().rev()` in order. -/
def iterRevList (fuel : Nat) (t : Tree α) : Option (List α) :=
  iterBackCollect fuel t t.len none

end Tree

/-- Algebraic view of a decoded subtree, recording the node handle at every
node so that in-order address lists can be read off the view.  Used to state
the iteration claims: the view is tied to the arena by `DecodesT` below. -/
inductive DecT (α : Type) where
  | leafT : Nat → List α → DecT α
  | internalT : Nat → DecT α → List (α × DecT α) → DecT α

/-- Handle of the root node of a view. -/
def DecT.rootId : DecT α → Nat
  | .leafT id _ => id
  | .internalT id _ _ => id

/-- Item count of the root node of a view. -/
def DecT.rootCount : DecT α → Nat
  | .leafT _ items => items.length
  | .internalT _ _ bs => bs.length

mutual
/-- In-order items of a view. -/
def DecT.itemsT : DecT α → List α
  | .leafT _ items => items
  | .internalT _ t0 bs => t0.itemsT ++ itemsB bs
/-- In-order items contributed by a branch list. -/
def itemsB : List (α × DecT α) → List α
  | [] => []
  | (x, t) :: rest => (x :: t.itemsT) ++ itemsB rest
end

mutual
/-- In-order addresses of the items of a view. -/
def DecT.addrsT : DecT α → List Address
  | .leafT id items => (List.range items.length).map (fun i => ⟨id, .idx i⟩)
  | .internalT id t0 bs => t0.addrsT ++ addrsB id 0 bs
/-- In-order addresses contributed by a branch list, whose first separator
sits at offset `k` of the parent `pid`. -/
def addrsB (pid : Nat) : Nat → List (α × DecT α) → List Address
  | _, [] => []
  | k, (_, t) :: rest => (⟨pid, .idx k⟩ :: t.addrsT) ++ addrsB pid (k + 1) rest
end

mutual
/-- All node handles of a view, root first. -/
def DecT.idsT : DecT α → List Nat
  | .leafT id _ => [id]
  | .internalT id t0 bs => id :: (t0.idsT ++ idsB bs)
/-- Node handles contributed by a branch list. -/
def idsB : List (α × DecT α) → List Nat
  | [] => []
  | (_, t) :: rest => t.idsT ++ idsB rest
end

mutual
/-- Number of nodes of a view. -/
def DecT.sizeT : DecT α → Nat
  | .leafT _ _ => 1
  | .internalT _ t0 bs => 1 + t0.sizeT + sizeB bs
/-- Number of nodes contributed by a branch list. -/
def sizeB : List (α × DecT α) → Nat
  | [] => 0
  | (_, t) :: rest => t.sizeT + sizeB rest
end

mutual
/-- Every leaf of the view is nonempty (true of every tree reachable by the
public operations: non-root nodes respect the underflow bound and an empty
leaf root is released). -/
def DecT.leavesNE : DecT α → Prop
  | .leafT _ items => items ≠ []
  | .internalT _ t0 bs => t0.leavesNE ∧ leavesNEB bs
/-- `DecT.leavesNE` over a branch list. -/
def leavesNEB : List (α × DecT α) → Prop
  | [] => True
  | (_, t) :: rest => t.leavesNE ∧ leavesNEB rest
end

mutual
/-- The decode relation tying a view to the arena: node `id` (with parent
handle `p`) stores exactly the structure described by the view.  It encodes
the parent-correctness invariant and, being well-founded, the absence of
cycles among reachable nodes. -/
inductive DecodesT {α : Type} (s : Store α) :
    Option Nat → Nat → DecT α → Prop where
  | leaf : ∀ (p : Option Nat) (id : Nat) (items : List α),
      s.get? id = some (.leaf ⟨p, items⟩) →
      DecodesT s p id (.leafT id items)
  | internal : ∀ (p : Option Nat) (id : Nat) (bs : List (Branch α))
      (t0 : DecT α) (tbs : List (α × DecT α)),
      s.get? id = some (.internal ⟨p, t0.rootId, bs⟩) →
      DecodesT s (some id) t0.rootId t0 →
      DecodesB s id bs tbs →
      DecodesT s p id (.internalT id t0 tbs)
/-- Pointwise decoding of a branch list. -/
inductive DecodesB {α : Type} (s : Store α) :
    Nat → List (Branch α) → List (α × DecT α) → Prop where
  | nil : ∀ pid : Nat, DecodesB s pid [] []
  | cons : ∀ (pid : Nat) (b : Branch α) (rest : List (Branch α)) (t : DecT α)
      (trest : List (α × DecT α)),
      b.child = t.rootId →
      DecodesT s (some pid) t.rootId t →
      DecodesB s pid rest trest →
      DecodesB s pid (b :: rest) ((b.item, t) :: trest)
end

/-- One step of the forward iteration order: `next_item_address` sends `a`
to `a'` at some fuel. -/
def NextA {α : Type} (s : Store α) (a a' : Address) : Prop :=
  ∃ f, Store.nextItemAddress f s a = some (some a')

/-- One step of the backward iteration order: `previous_item_address` sends
`a` to `a'` at some fuel. -/
def PrevA {α : Type} (s : Store α) (a a' : Address) : Prop :=
  ∃ f, Store.previousItemAddress f s a = some (some a')

/-!  ## Theorems  -/

/-- C5: an overflowing leaf holds `len = M + 1` items; `split` with
`m = (len - 1) / 2` returns the remaining count `m`, the median that sat at
index `m`, and a fresh right leaf holding exactly the items previously at
indices `m+1..len`, while the original leaf keeps indices `0..m`; afterwards
neither side is underflowing. -/
theorem c5_leaf_split {α : Type} (l : Leaf α) (median : α)
    (h : l.items.length = M + 1)
    (hm : l.items[(l.items.length - 1) / 2]? = some median) :
    l.split = some ((l.items.length - 1) / 2, median,
        ⟨l.parent, l.items.drop ((l.items.length - 1) / 2 + 1)⟩,
        ⟨l.parent, l.items.take ((l.items.length - 1) / 2)⟩) ∧
      (l.items.take ((l.items.length - 1) / 2)).length =
        (l.items.length - 1) / 2 ∧
      Leaf.isUnderflowing
        ⟨l.parent, l.items.take ((l.items.length - 1) / 2)⟩ = false ∧
      Leaf.isUnderflowing
        ⟨l.parent, l.items.drop ((l.items.length - 1) / 2 + 1)⟩ = false := by
  have hm4 : (l.items.length - 1) / 2 = 4 := by rw [h]; decide
  rw [hm4] at hm ⊢
  obtain ⟨p, items⟩ := l
  simp only [M] at h
  rcases items with _ | ⟨a0, items⟩; · simp at h
  rcases items with _ | ⟨a1, items⟩; · simp at h
  rcases items with _ | ⟨a2, items⟩; · simp at h
  rcases items with _ | ⟨a3, items⟩; · simp at h
  rcases items with _ | ⟨a4, items⟩; · simp at h
  rcases items with _ | ⟨a5, items⟩; · simp at h
  rcases items with _ | ⟨a6, items⟩; · simp at h
  rcases items with _ | ⟨a7, items⟩; · simp at h
  rcases items with _ | ⟨a8, items⟩; · simp at h
  rcases items with _ | ⟨a9, items⟩
  · obtain rfl : a4 = median := by simpa using hm
    refine ⟨?_, by simp, by simp [Leaf.isUnderflowing, Leaf.itemCount, M], ?_⟩
    · simp [Leaf.split, Leaf.isOverflowing, Leaf.isUnderflowing, Leaf.itemCount, M]
    · simp [Leaf.isUnderflowing, Leaf.itemCount, M]
  · simp at h

/-- C5 witness: a concrete overflowing 9-item leaf. -/
theorem c5_leaf_split_witness :
    Leaf.split (⟨none, [10, 20, 30, 40, 50, 60, 70, 80, 90]⟩ : Leaf Nat) =
      some (4, 50, ⟨none, [60, 70, 80, 90]⟩, ⟨none, [10, 20, 30, 40]⟩) := by
  have h := c5_leaf_split
    (⟨none, [10, 20, 30, 40, 50, 60, 70, 80, 90]⟩ : Leaf Nat) 50
    (by decide) (by decide)
  exact h.1

/-- C8: a leaf's `pop_left`/`pop_right` refuse with `WouldUnderflow` exactly
when the item count is below `M / 2`; otherwise they remove and return the
leftmost (resp. rightmost) item.  The signal is consumed by the rebalancer:
a failing sibling probe makes `try_rotate_left` report plain `false`,
leaving the storage and tracked address untouched. -/
theorem c8_pop_would_underflow {α : Type} :
    (∀ l : Leaf α, l.popLeft = .error .mk ↔ l.itemCount < M / 2) ∧
    (∀ l : Leaf α, l.popRight = .error .mk ↔ l.itemCount < M / 2) ∧
    (∀ (l : Leaf α) (x : α) (rest : List α), l.items = x :: rest →
      M / 2 ≤ l.itemCount → l.popLeft = .ok (x, ⟨l.parent, rest⟩)) ∧
    (∀ (l : Leaf α) (x : α), l.items.getLast? = some x →
      M / 2 ≤ l.itemCount →
      l.popRight = .ok (.idx l.items.length, x, ⟨l.parent, l.items.dropLast⟩)) ∧
    (∀ (s : Store α) (id deficientChildIndex : Nat) (addr : Address)
        (node : Node α) (rsId dcId : Nat) (rs : Node α),
      s.get? id = some node →
      ¬ deficientChildIndex + 1 ≥ node.childCount →
      node.childId (deficientChildIndex + 1) = some rsId →
      node.childId deficientChildIndex = some dcId →
      s.get? rsId = some rs →
      rs.popLeft = .error .mk →
      tryRotateLeft s id deficientChildIndex addr = some (false, s, addr)) := by
  refine ⟨?_, ?_, ?_, ?_, ?_⟩
  · intro l
    rcases Nat.lt_or_ge l.itemCount (M / 2) with hlt | hge
    · simp [Leaf.popLeft, if_pos hlt, hlt]
    · have hne : l.items ≠ [] := by
        intro hnil
        rw [Leaf.itemCount, hnil] at hge
        simp [M] at hge
      obtain ⟨x, rest, hx⟩ := List.exists_cons_of_ne_nil hne
      rw [Leaf.popLeft, if_neg (Nat.not_lt.2 hge), hx]
      simp [Nat.not_lt.2 hge]
  · intro l
    rcases Nat.lt_or_ge l.itemCount (M / 2) with hlt | hge
    · simp [Leaf.popRight, if_pos hlt, hlt]
    · have hne : l.items ≠ [] := by
        intro hnil
        rw [Leaf.itemCount, hnil] at hge
        simp [M] at hge
      obtain ⟨x, hx⟩ := Option.isSome_iff_exists.1 (List.getLast?_isSome.2 hne)
      rw [Leaf.popRight, if_neg (Nat.not_lt.2 hge), hx]
      simp [Nat.not_lt.2 hge]
  · intro l x rest hx hle
    rw [Leaf.popLeft, if_neg (Nat.not_lt.2 hle), hx]
  · intro l x hx hle
    rw [Leaf.popRight, if_neg (Nat.not_lt.2 hle), hx]
  · intro s id k addr node rsId dcId rs hnode hcc hrs hdc hrsnode hpop
    rw [tryRotateLeft, hnode]
    simp only [if_neg hcc, hrs, hdc, hrsnode, hpop]

/-- C8 witness: concrete instances of every conjunct. -/
theorem c8_pop_would_underflow_witness :
    Leaf.popLeft (⟨none, [1, 2, 3]⟩ : Leaf Nat) = .error .mk ∧
      Leaf.popRight (⟨none, [1, 2, 3]⟩ : Leaf Nat) = .error .mk ∧
      Leaf.popLeft (⟨none, [1, 2, 3, 4]⟩ : Leaf Nat) =
        .ok (1, ⟨none, [2, 3, 4]⟩) ∧
      Leaf.popRight (⟨none, [1, 2, 3, 4]⟩ : Leaf Nat) =
        .ok (.idx 4, 4, ⟨none, [1, 2, 3]⟩) ∧
      tryRotateLeft (⟨[some (.internal ⟨none, 1, [⟨5, 2⟩]⟩),
          some (.leaf ⟨some 0, [1, 2]⟩), some (.leaf ⟨some 0, [6, 7, 8]⟩)]⟩ : Store Nat)
          0 0 ⟨1, .idx 0⟩ =
        some (false, ⟨[some (.internal ⟨none, 1, [⟨5, 2⟩]⟩),
          some (.leaf ⟨some 0, [1, 2]⟩), some (.leaf ⟨some 0, [6, 7, 8]⟩)]⟩,
          ⟨1, .idx 0⟩) := by
  have h := c8_pop_would_underflow (α := Nat)
  refine ⟨(h.1 _).2 (by decide), (h.2.1 _).2 (by decide),
    h.2.2.1 _ 1 [2, 3, 4] rfl (by decide),
    h.2.2.2.1 _ 4 (by decide) (by decide),
    h.2.2.2.2 _ 0 0 ⟨1, .idx 0⟩ (.internal ⟨none, 1, [⟨5, 2⟩]⟩) 2 1
      (.leaf ⟨some 0, [6, 7, 8]⟩) (by decide) (by decide) (by decide)
      (by decide) (by decide) rfl⟩

/-- C6: the tracked-address translation after `rebalance` splits an
overflowing node `id` sitting at child-index `k` of its parent (the function
invoked in the `Overflow`/has-parent branch, with `offset = k.into()`):
an item address in the split node moves to the parent at offset `k` when it
named the median, to the right sibling at `old - median_offset - 1` when
greater, and stays put when smaller; an item address in the parent at offset
`≥ k` is bumped by one; every other address (other nodes, or the sentinel
offset) is unchanged. -/
theorem c6_split_address_translation
    (addr : Address) (id parentId rightId k medianOffset : Nat)
    (hip : id ≠ parentId) :
    (∀ o : Nat, addr = ⟨id, .idx o⟩ →
      splitAddrUpdate addr id parentId rightId medianOffset (.idx k) =
        some (if o = medianOffset then ⟨parentId, .idx k⟩
          else if medianOffset < o then ⟨rightId, .idx (o - medianOffset - 1)⟩
          else addr)) ∧
    (∀ o : Nat, addr = ⟨parentId, .idx o⟩ →
      splitAddrUpdate addr id parentId rightId medianOffset (.idx k) =
        some (if k ≤ o then ⟨parentId, .idx (o + 1)⟩ else addr)) ∧
    (addr.node ≠ id → addr.node ≠ parentId →
      splitAddrUpdate addr id parentId rightId medianOffset (.idx k) =
        some addr) ∧
    (addr.offset = .before →
      splitAddrUpdate addr id parentId rightId medianOffset (.idx k) =
        some addr) := by
  refine ⟨?_, ?_, ?_, ?_⟩
  · rintro o rfl
    simp only [splitAddrUpdate, if_pos rfl, Offset.cmpNat]
    rcases Nat.lt_trichotomy o medianOffset with hlt | heq | hgt
    · rw [Nat.compare_eq_lt.2 hlt]
      simp [Nat.ne_of_lt hlt, Nat.not_lt.2 (Nat.le_of_lt hlt)]
    · rw [heq, Nat.compare_eq_eq.2 rfl]
      simp
    · rw [Nat.compare_eq_gt.2 hgt]
      simp [Offset.value, Nat.ne_of_gt hgt, hgt]
  · rintro o rfl
    rw [splitAddrUpdate, if_neg (by simpa using hip.symm)]
    rcases Nat.lt_or_ge o k with hlt | hge
    · rw [if_neg, if_neg (by omega)]
      rintro ⟨-, hge'⟩
      rw [Offset.ge, Offset.cmp] at hge'
      simp [Nat.compare_eq_lt.2 hlt] at hge'
    · have hge' : Offset.ge (.idx o) (.idx k) = true := by
        rw [Offset.ge, Offset.cmp]
        rcases Nat.lt_or_ge k o with h | h
        · simp [Nat.compare_eq_gt.2 h]
        · have heq : o = k := Nat.le_antisymm (by omega) hge
          simp [heq, Nat.compare_eq_eq.2 rfl]
      rw [if_pos ⟨rfl, hge'⟩, if_pos (by omega)]
      rfl
  · intro h1 h2
    rw [splitAddrUpdate, if_neg h1, if_neg (by rintro ⟨h, -⟩; exact h2 h)]
  · intro hb
    rw [splitAddrUpdate]
    split
    · rw [hb]
      rfl
    · rw [if_neg]
      rintro ⟨-, hge⟩
      rw [hb] at hge
      simp [Offset.ge, Offset.cmp] at hge

/-- C6 witness: concrete instances of each translation case (median, right,
left, parent-bump, parent-stay, unrelated node, sentinel). -/
theorem c6_split_address_translation_witness :
    splitAddrUpdate ⟨3, .idx 4⟩ 3 7 9 4 (.idx 2) = some ⟨7, .idx 2⟩ ∧
      splitAddrUpdate ⟨3, .idx 6⟩ 3 7 9 4 (.idx 2) = some ⟨9, .idx 1⟩ ∧
      splitAddrUpdate ⟨3, .idx 1⟩ 3 7 9 4 (.idx 2) = some ⟨3, .idx 1⟩ ∧
      splitAddrUpdate ⟨7, .idx 5⟩ 3 7 9 4 (.idx 2) = some ⟨7, .idx 6⟩ ∧
      splitAddrUpdate ⟨7, .idx 1⟩ 3 7 9 4 (.idx 2) = some ⟨7, .idx 1⟩ ∧
      splitAddrUpdate ⟨11, .idx 0⟩ 3 7 9 4 (.idx 2) = some ⟨11, .idx 0⟩ ∧
      splitAddrUpdate ⟨3, .before⟩ 3 7 9 4 (.idx 2) = some ⟨3, .before⟩ := by
  have h3 := c6_split_address_translation ⟨3, .idx 4⟩ 3 7 9 2 4 (by decide)
  have h6 := c6_split_address_translation ⟨3, .idx 6⟩ 3 7 9 2 4 (by decide)
  have h1 := c6_split_address_translation ⟨3, .idx 1⟩ 3 7 9 2 4 (by decide)
  have h75 := c6_split_address_translation ⟨7, .idx 5⟩ 3 7 9 2 4 (by decide)
  have h71 := c6_split_address_translation ⟨7, .idx 1⟩ 3 7 9 2 4 (by decide)
  have h11 := c6_split_address_translation ⟨11, .idx 0⟩ 3 7 9 2 4 (by decide)
  have hb := c6_split_address_translation ⟨3, .before⟩ 3 7 9 2 4 (by decide)
  refine ⟨by simpa using h3.1 4 rfl, by simpa using h6.1 6 rfl,
    by simpa using h1.1 1 rfl, by simpa using h75.2.1 5 rfl,
    by simpa using h71.2.1 1 rfl, h11.2.2.1 (by decide) (by decide),
    hb.2.2.2 rfl⟩

/-- C3 counterexample: insert `5` into the empty tree, then remove it.  The
claim says the empty leaf root is left in place and the tree keeps its root
handle; in the code, the `Underflow`/no-parent branch of `rebalance` takes
`child_id_opt(0)` (which is `None` on a leaf) as the new root and *releases*
the empty leaf, so the root handle is cleared and slot `0` is deallocated
while the length drops to `0`. -/
theorem c3_counterexample :
    ((Tree.insert 10 Tree.new compare 5).bind
        (fun p => Tree.remove 10 p.1 compare 5)).map
        (fun p => (p.1.root, p.1.nodes.get? 0, p.1.len)) =
      some (none, none, 0) := by decide

/-- C3 amended: when rebalancing reaches a root node that is an empty leaf
(for example after `remove` deletes the last element), the empty leaf root
is *released* and the returned root handle is `none`: the tree is empty and
keeps no root node (its slot is deallocated). -/
theorem c3_empty_leaf_root_released {α : Type} (s : Store α)
    (root : Option Nat) (id : Nat) (addr : Address) (fuel : Nat)
    (h : s.get? id = some (.leaf ⟨none, []⟩)) :
    rebalance (fuel + 1) s root id addr =
      some (⟨s.slots.set id none⟩, none, none) := by
  have hbal : (Node.leaf (⟨none, []⟩ : Leaf α)).balance = .underflow true := rfl
  simp only [rebalance, h, hbal, rebalanceLoop, Node.parent, Node.childIdOpt,
    Internal.childIdOpt, Store.releaseNode, Option.map]
  simp [Store.releaseNode, h]

/-- C3 amended witness: a concrete one-slot store holding an empty leaf
root. -/
theorem c3_empty_leaf_root_released_witness :
    rebalance 1 (⟨[some (.leaf ⟨none, []⟩)]⟩ : Store Nat) (some 0) 0
        ⟨0, .idx 0⟩ =
      some (⟨[none]⟩, none, none) := by
  have h := c3_empty_leaf_root_released (⟨[some (.leaf ⟨none, []⟩)]⟩ : Store Nat)
    (some 0) 0 ⟨0, .idx 0⟩ 0 (by decide)
  simpa using h

/-- Boolean equality with `Ordering.eq` transports to propositional
equality. -/
theorem ord_beq_eq {o : Ordering} (h : (o == Ordering.eq) = true) :
    o = .eq := by
  cases o
  · exact absurd h (by decide)
  · rfl
  · exact absurd h (by decide)

/-- The loop of `binary_search_min` only reports `eq = true` for an index
whose element compares `Equal` to the key. -/
theorem bsmLoop_eq_mem {α β : Type} (cmp : α → β → Ordering) (s : List α)
    (key : β) :
    ∀ (fuel i j : Nat) (eq : Bool) (i' : Nat),
      bsmLoop cmp s key fuel i j eq = some (i', true) →
      (eq = true → ∃ x, s[i]? = some x ∧ cmp x key = .eq) →
      ∃ x, s[i']? = some x ∧ cmp x key = .eq := by
  intro fuel
  induction fuel with
  | zero =>
    intro i j eq i' h
    simp [bsmLoop] at h
  | succ fuel ih =>
    intro i j eq i' h hinv
    rw [bsmLoop] at h
    split at h
    · simp only [Option.some.injEq, Prod.mk.injEq] at h
      obtain ⟨rfl, rfl⟩ := h
      exact hinv rfl
    · split at h
      · exact absurd h (by simp)
      · rename_i x hx
        split at h
        · exact ih i _ eq i' h hinv
        · rename_i hcmp
          exact ih _ j true i' h (fun _ => ⟨x, hx, hcmp⟩)
        · exact ih _ j false i' h (by simp)

/-- `binary_search_min` finds an `Equal` element whenever it reports a
hit. -/
theorem binarySearchMin_eq_mem {α β : Type} (cmp : α → β → Ordering)
    (s : List α) (key : β) (i : Nat)
    (h : binarySearchMin cmp s key = some (some (i, true))) :
    ∃ x, s[i]? = some x ∧ cmp x key = .eq := by
  rw [binarySearchMin] at h
  split at h
  · exact absurd h (by simp)
  · rename_i x0 hx0
    split at h
    · exact absurd h (by simp)
    · split at h
      · exact absurd h (by simp)
      · rename_i xj hxj
        split at h
        · rename_i hle
          simp only [Option.some.injEq, Prod.mk.injEq] at h
          obtain ⟨rfl, heq⟩ := h
          exact ⟨xj, hxj, ord_beq_eq heq⟩
        · cases hb : bsmLoop cmp s key s.length 0 (s.length - 1)
              (cmp x0 key == .eq) with
          | none => rw [hb] at h; exact absurd h (by simp)
          | some r =>
            rw [hb] at h
            simp only [Option.map, Option.some.injEq] at h
            obtain rfl := h
            exact bsmLoop_eq_mem cmp s key s.length 0 (s.length - 1)
              (cmp x0 key == .eq) i hb
              (fun he => ⟨x0, hx0, ord_beq_eq he⟩)

/-- A `Leaf::offset_of` hit names an item comparing `Equal` to the key. -/
theorem leaf_offsetOf_ok_mem {α β : Type} (cmp : α → β → Ordering)
    (l : Leaf α) (key : β) (o : Offset)
    (h : l.offsetOf cmp key = some (.ok o)) :
    ∃ x, x ∈ l.items ∧ cmp x key = .eq := by
  rw [Leaf.offsetOf] at h
  split at h
  · exact absurd h (by simp)
  · rename_i i hbs
    obtain ⟨x, hx, hcmp⟩ := binarySearchMin_eq_mem cmp l.items key i hbs
    obtain ⟨hlt, hget⟩ := List.getElem?_eq_some.1 hx
    exact ⟨x, hget ▸ List.getElem_mem hlt, hcmp⟩
  · exact absurd h (by simp)
  · exact absurd h (by simp)

/-- An `Internal::offset_of` hit names an item comparing `Equal` to the
key. -/
theorem internal_offsetOf_ok_mem {α β : Type} (cmp : α → β → Ordering)
    (n : Internal α) (key : β) (o : Offset)
    (h : n.offsetOf cmp key = some (.ok o)) :
    ∃ b, b ∈ n.otherChildren ∧ cmp b.item key = .eq := by
  rw [Internal.offsetOf] at h
  split at h
  · exact absurd h (by simp)
  · rename_i i hbs
    obtain ⟨b, hb, hcmp⟩ :=
      binarySearchMin_eq_mem (fun b k => cmp b.item k) n.otherChildren key i hbs
    obtain ⟨hlt, hget⟩ := List.getElem?_eq_some.1 hb
    exact ⟨b, hget ▸ List.getElem_mem hlt, hcmp⟩
  · split at h <;> exact absurd h (by simp)
  · exact absurd h (by simp)

/-- An `Internal::offset_of` miss descends into an actual child of the
node. -/
theorem internal_offsetOf_err_child {α β : Type} (cmp : α → β → Ordering)
    (n : Internal α) (key : β) (i c : Nat)
    (h : n.offsetOf cmp key = some (.error (i, c))) :
    c = n.firstChild ∨ ∃ b, b ∈ n.otherChildren ∧ b.child = c := by
  rw [Internal.offsetOf] at h
  split at h
  · exact absurd h (by simp)
  · exact absurd h (by simp)
  · rename_i i0 hbs
    split at h
    · exact absurd h (by simp)
    · rename_i b hb
      simp only [Option.some.injEq, Except.error.injEq, Prod.mk.injEq] at h
      obtain ⟨-, rfl⟩ := h
      obtain ⟨hlt, hget⟩ := List.getElem?_eq_some.1 hb
      exact Or.inr ⟨b, hget ▸ List.getElem_mem hlt, rfl⟩
  · simp only [Option.some.injEq, Except.error.injEq, Prod.mk.injEq] at h
    exact Or.inl h.2.symm

/-- A `Node::offset_of` hit names an item of the node comparing `Equal`. -/
theorem node_offsetOf_ok_mem {α β : Type} (cmp : α → β → Ordering)
    (node : Node α) (key : β) (o : Offset)
    (h : node.offsetOf cmp key = some (.ok o)) :
    ∃ x, x ∈ node.itemsList ∧ cmp x key = .eq := by
  cases node with
  | leaf l =>
    rw [Node.offsetOf] at h
    split at h
    · exact absurd h (by simp)
    · rename_i o0 hof
      obtain ⟨x, hx, hcmp⟩ := leaf_offsetOf_ok_mem cmp l key o0 hof
      exact ⟨x, hx, hcmp⟩
    · split at h <;> exact absurd h (by simp)
  | internal n =>
    rw [Node.offsetOf] at h
    split at h
    · exact absurd h (by simp)
    · rename_i o0 hof
      obtain ⟨b, hb, hcmp⟩ := internal_offsetOf_ok_mem cmp n key o0 hof
      exact ⟨b.item, List.mem_map_of_mem _ hb, hcmp⟩
    · exact absurd h (by simp)

/-- A `Node::offset_of` miss with a child handle happens on an internal node
and descends into one of its children. -/
theorem node_offsetOf_err_child {α β : Type} (cmp : α → β → Ordering)
    (node : Node α) (key : β) (i c : Nat)
    (h : node.offsetOf cmp key = some (.error (i, some c))) :
    ∃ n, node = .internal n ∧
      (c = n.firstChild ∨ ∃ b, b ∈ n.otherChildren ∧ b.child = c) := by
  cases node with
  | leaf l =>
    rw [Node.offsetOf] at h
    split at h
    · exact absurd h (by simp)
    · exact absurd h (by simp)
    · split at h
      · exact absurd h (by simp)
      · simp at h
  | internal n =>
    rw [Node.offsetOf] at h
    split at h
    · exact absurd h (by simp)
    · exact absurd h (by simp)
    · rename_i i0 c0 hof
      simp only [Option.some.injEq, Except.error.injEq, Prod.mk.injEq,
        Option.some.injEq] at h
      obtain ⟨rfl, rfl⟩ := h
      exact ⟨n, rfl, internal_offsetOf_err_child cmp n key i0 c0 hof⟩

/-- `List.mapM` over `Option` sends every input to some member of the
output. -/
theorem mapM_option_mem {γ δ : Type} (f : γ → Option δ) :
    ∀ (l : List γ) (parts : List δ), l.mapM f = some parts →
      ∀ b ∈ l, ∃ p, f b = some p ∧ p ∈ parts := by
  intro l
  induction l with
  | nil => simp
  | cons a l ih =>
    intro parts h b hb
    rw [List.mapM_cons] at h
    cases hfa : f a with
    | none => rw [hfa] at h; simp at h
    | some pa =>
      rw [hfa] at h
      cases hml : l.mapM f with
      | none => rw [hml] at h; simp at h
      | some ps =>
        rw [hml] at h
        simp at h
        subst h
        rcases List.mem_cons.1 hb with rfl | hbl
        · exact ⟨pa, hfa, List.mem_cons_self _ _⟩
        · obtain ⟨p, hp, hpm⟩ := ih ps hml b hbl
          exact ⟨p, hp, List.mem_cons_of_mem _ hpm⟩

/-- Unfolding `elemsNode` over a leaf. -/
theorem elemsNode_leaf_eq {α : Type} (F : Nat) (s : Store α) (id : Nat)
    (l : Leaf α) (hget : s.get? id = some (.leaf l)) :
    elemsNode (F + 1) s id = some l.items := by
  rw [elemsNode, hget]

/-- Unfolding `elemsNode` over an internal node. -/
theorem elemsNode_internal_eq {α : Type} (F : Nat) (s : Store α) (id : Nat)
    (n : Internal α) (hget : s.get? id = some (.internal n)) :
    elemsNode (F + 1) s id =
      match elemsNode F s n.firstChild with
      | none => none
      | some first =>
        (n.otherChildren.mapM
            (fun b => (elemsNode F s b.child).map (fun es => b.item :: es))).map
          (fun parts => first ++ parts.flatten) := by
  rw [elemsNode, hget]

/-- Every item stored directly in a node occurs in the in-order element list
of its subtree. -/
theorem elemsNode_itemsList_subset {α : Type} (F : Nat) (s : Store α)
    (id : Nat) (node : Node α) (es : List α)
    (hget : s.get? id = some node)
    (h : elemsNode (F + 1) s id = some es) :
    ∀ x ∈ node.itemsList, x ∈ es := by
  cases node with
  | leaf l =>
    rw [elemsNode_leaf_eq F s id l hget] at h
    simp only [Option.some.injEq] at h
    subst h
    exact fun x hx => hx
  | internal n =>
    rw [elemsNode_internal_eq F s id n hget] at h
    cases hfc : elemsNode F s n.firstChild with
    | none => rw [hfc] at h; exact absurd h (by simp)
    | some first =>
      rw [hfc] at h
      cases hm : n.otherChildren.mapM
          (fun b => (elemsNode F s b.child).map (fun es => b.item :: es)) with
      | none => rw [hm] at h; exact absurd h (by simp)
      | some parts =>
        rw [hm] at h
        simp only [Option.map, Option.some.injEq] at h
        subst h
        intro x hx
        simp only [Node.itemsList, List.mem_map] at hx
        obtain ⟨b, hb, rfl⟩ := hx
        obtain ⟨p, hp, hpm⟩ := mapM_option_mem _ n.otherChildren parts hm b hb
        cases hce : elemsNode F s b.child with
        | none => rw [hce] at hp; exact absurd hp (by simp)
        | some esb =>
          rw [hce] at hp
          simp only [Option.map, Option.some.injEq] at hp
          subst hp
          refine List.mem_append_right _ ?_
          exact List.mem_flatten.2 ⟨b.item :: esb, hpm, List.mem_cons_self _ _⟩

/-- The in-order element list of a child is contained in the in-order
element list of its internal parent. -/
theorem elemsNode_child_subset {α : Type} (F : Nat) (s : Store α) (id : Nat)
    (n : Internal α) (es : List α) (c : Nat)
    (hget : s.get? id = some (.internal n))
    (h : elemsNode (F + 1) s id = some es)
    (hc : c = n.firstChild ∨ ∃ b, b ∈ n.otherChildren ∧ b.child = c) :
    ∃ es', elemsNode F s c = some es' ∧ ∀ x ∈ es', x ∈ es := by
  rw [elemsNode_internal_eq F s id n hget] at h
  cases hfc : elemsNode F s n.firstChild with
  | none => rw [hfc] at h; exact absurd h (by simp)
  | some first =>
    rw [hfc] at h
    cases hm : n.otherChildren.mapM
        (fun b => (elemsNode F s b.child).map (fun es => b.item :: es)) with
    | none => rw [hm] at h; exact absurd h (by simp)
    | some parts =>
      rw [hm] at h
      simp only [Option.map, Option.some.injEq] at h
      subst h
      rcases hc with rfl | ⟨b, hb, rfl⟩
      · exact ⟨first, hfc, fun x hx => List.mem_append_left _ hx⟩
      · obtain ⟨p, hp, hpm⟩ := mapM_option_mem _ n.otherChildren parts hm b hb
        cases hce : elemsNode F s b.child with
        | none => rw [hce] at hp; exact absurd hp (by simp)
        | some esb =>
          rw [hce] at hp
          simp only [Option.map, Option.some.injEq] at hp
          subst hp
          refine ⟨esb, rfl, fun x hx => List.mem_append_right _ ?_⟩
          exact List.mem_flatten.2 ⟨b.item :: esb, hpm, List.mem_cons_of_mem _ hx⟩

/-- If `address_in` reports a hit, some element of the subtree compares
`Equal` to the key. -/
theorem addressIn_ok_mem {α β : Type} (cmp : α → β → Ordering) (key : β) :
    ∀ (fuel : Nat) (s : Store α) (id : Nat) (a : Address) (F : Nat)
      (es : List α),
      Store.addressIn fuel s id cmp key = some (.ok a) →
      elemsNode F s id = some es →
      ∃ x, x ∈ es ∧ cmp x key = .eq := by
  intro fuel
  induction fuel with
  | zero =>
    intro s id a F es h
    simp [Store.addressIn] at h
  | succ fuel ih =>
    intro s id a F es h hes
    cases F with
    | zero => exact absurd hes (by simp [elemsNode])
    | succ F =>
      rw [Store.addressIn] at h
      split at h
      · exact absurd h (by simp)
      · rename_i node hget
        split at h
        · exact absurd h (by simp)
        · rename_i o hof
          obtain ⟨x, hx, hcmp⟩ := node_offsetOf_ok_mem cmp node key o hof
          exact ⟨x, elemsNode_itemsList_subset F s id node es hget hes x hx,
            hcmp⟩
        · exact absurd h (by simp)
        · rename_i i c hof
          obtain ⟨n, rfl, hchild⟩ :=
            node_offsetOf_err_child cmp node key i c hof
          obtain ⟨es', hes', hsub⟩ :=
            elemsNode_child_subset F s id n es c hget hes hchild
          obtain ⟨x, hx, hcmp⟩ := ih s c a F es' h hes'
          exact ⟨x, hsub x hx, hcmp⟩

/-- C9: removing a probe key that compares `Equal` to no stored element
returns `None` and leaves the tree entirely unchanged (same root handle,
same length, same node contents).  The hypotheses require only that the
search and the element enumeration terminate without panicking. -/
theorem c9_remove_absent {α β : Type} (t : Tree α) (cmp : α → β → Ordering)
    (key : β) (fuel F : Nat) (r : Except (Option Address) Address)
    (es : List α)
    (hsearch : t.addressOf fuel cmp key = some r)
    (helems : t.elems F = some es)
    (hno : ∀ x ∈ es, cmp x key ≠ .eq) :
    t.remove fuel cmp key = some (t, none) := by
  cases hroot : t.root with
  | none =>
    have haddr : t.addressOf fuel cmp key = some (.error none) := by
      rw [Tree.addressOf, hroot]
    rw [Tree.remove, haddr]
  | some id =>
    simp only [Tree.elems, hroot] at helems
    cases hai : Store.addressIn fuel t.nodes id cmp key with
    | none =>
      simp only [Tree.addressOf, hroot, hai, Option.map] at hsearch
      exact absurd hsearch (by simp)
    | some r' =>
      cases r' with
      | ok a =>
        obtain ⟨x, hx, hcmp⟩ :=
          addressIn_ok_mem cmp key fuel t.nodes id a F es hai helems
        exact absurd hcmp (hno x hx)
      | error a =>
        have haddr : t.addressOf fuel cmp key = some (.error (some a)) := by
          simp [Tree.addressOf, hroot, hai]
        rw [Tree.remove, haddr]

/-- C9 witness: a two-element leaf tree probed with an absent key. -/
theorem c9_remove_absent_witness :
    Tree.remove 1 (⟨⟨[some (.leaf ⟨none, [1, 3]⟩)]⟩, some 0, 2⟩ : Tree Nat)
        compare 2 =
      some (⟨⟨[some (.leaf ⟨none, [1, 3]⟩)]⟩, some 0, 2⟩, none) :=
  c9_remove_absent ⟨⟨[some (.leaf ⟨none, [1, 3]⟩)]⟩, some 0, 2⟩ compare 2 1 1
    (.error (some ⟨0, .idx 1⟩)) [1, 3] (by decide) (by decide) (by decide)

/-- A decoded view's recorded root handle is the decoded node. -/
theorem rootId_of_decodesT {α : Type} {s : Store α} {p : Option Nat}
    {id : Nat} {bt : DecT α} (h : DecodesT s p id bt) : bt.rootId = id := by
  cases h <;> rfl

mutual
/-- Address and item lists of a view have equal length. -/
theorem addrsT_length {α : Type} (bt : DecT α) :
    bt.addrsT.length = bt.itemsT.length := by
  cases bt with
  | leafT id items => simp [DecT.addrsT, DecT.itemsT]
  | internalT id t0 bs =>
    simp [DecT.addrsT, DecT.itemsT, addrsT_length t0, addrsB_length id 0 bs]
/-- Address and item lists of a branch list have equal length. -/
theorem addrsB_length {α : Type} (pid k : Nat) (bs : List (α × DecT α)) :
    (addrsB pid k bs).length = (itemsB bs).length := by
  cases bs with
  | nil => rfl
  | cons hd rest =>
    obtain ⟨x, t⟩ := hd
    simp [addrsB, itemsB, addrsT_length t, addrsB_length pid (k + 1) rest]
end

mutual
/-- A view with nonempty leaves has at least one item. -/
theorem itemsT_ne {α : Type} (bt : DecT α) (h : bt.leavesNE) :
    bt.itemsT ≠ [] := by
  cases bt with
  | leafT id items => exact h
  | internalT id t0 bs =>
    have := itemsT_ne t0 h.1
    simp only [DecT.itemsT]
    intro hc
    exact this (List.append_eq_nil.1 hc).1
end

/-- Fuel monotonicity of the `next_item_address` climbing loop. -/
theorem niaClimb_mono {α : Type} (s : Store α) :
    ∀ (f : Nat) (a : Address) (r : Option Address) (g : Nat), f ≤ g →
      Store.niaClimb f s a = some r → Store.niaClimb g s a = some r := by
  intro f
  induction f with
  | zero => intro a r g _ h; simp [Store.niaClimb] at h
  | succ f ih =>
    intro a r g hg h
    obtain ⟨g, rfl⟩ : ∃ g', g = g' + 1 := ⟨g - 1, by omega⟩
    cases hget : s.get? a.node with
    | none => simp only [Store.niaClimb, hget] at h; exact absurd h (by simp)
    | some node =>
      by_cases hc : (a.offset.ltNat node.itemCount) = true
      · simp only [Store.niaClimb, hget, if_pos hc] at h ⊢
        exact h
      · cases hpar : node.parent with
        | none =>
          simp only [Store.niaClimb, hget, if_neg hc, hpar] at h ⊢
          exact h
        | some pid =>
          cases hbind : (s.get? pid).bind (fun p => p.childIndex a.node) with
          | none =>
            simp only [Store.niaClimb, hget, if_neg hc, hpar, hbind] at h
            exact absurd h (by simp)
          | some ci =>
            simp only [Store.niaClimb, hget, if_neg hc, hpar, hbind] at h ⊢
            exact ih _ _ g (by omega) h

/-- Fuel monotonicity of the `next_item_address` descending loop. -/
theorem niaDescend_mono {α : Type} (s : Store α) :
    ∀ (f : Nat) (a : Address) (r : Option Address) (g : Nat), f ≤ g →
      Store.niaDescend f s a = some r → Store.niaDescend g s a = some r := by
  intro f
  induction f with
  | zero => intro a r g _ h; simp [Store.niaDescend] at h
  | succ f ih =>
    intro a r g hg h
    obtain ⟨g, rfl⟩ : ∃ g', g = g' + 1 := ⟨g - 1, by omega⟩
    cases hget : s.get? a.node with
    | none => simp only [Store.niaDescend, hget] at h; exact absurd h (by simp)
    | some node =>
      cases hov : a.offset.value with
      | none =>
        simp only [Store.niaDescend, hget, hov] at h
        exact absurd h (by simp)
      | some o =>
        cases hch : node.childIdOpt o with
        | some childId =>
          simp only [Store.niaDescend, hget, hov, hch] at h ⊢
          exact ih _ _ g (by omega) h
        | none =>
          simp only [Store.niaDescend, hget, hov, hch] at h ⊢
          exact niaClimb_mono s f a r g (by omega) h

/-- Fuel monotonicity of `next_item_address`. -/
theorem nextItemAddress_mono {α : Type} (s : Store α) (f : Nat) (a : Address)
    (r : Option Address) (g : Nat) (hg : f ≤ g)
    (h : Store.nextItemAddress f s a = some r) :
    Store.nextItemAddress g s a = some r := by
  cases hget : s.get? a.node with
  | none =>
    simp only [Store.nextItemAddress, hget] at h
    exact absurd h (by simp)
  | some node =>
    cases hcmp : a.offset.cmpNat node.itemCount with
    | gt => simp only [Store.nextItemAddress, hget, hcmp] at h ⊢; exact h
    | lt =>
      simp only [Store.nextItemAddress, hget, hcmp] at h ⊢
      exact niaDescend_mono s f _ r g hg h
    | eq =>
      simp only [Store.nextItemAddress, hget, hcmp] at h ⊢
      exact niaDescend_mono s f _ r g hg h

/-- Fuel monotonicity of the `previous_item_address` climbing loop. -/
theorem piaClimb_mono {α : Type} (s : Store α) :
    ∀ (f : Nat) (a : Address) (r : Option Address) (g : Nat), f ≤ g →
      Store.piaClimb f s a = some r → Store.piaClimb g s a = some r := by
  intro f
  induction f with
  | zero => intro a r g _ h; simp [Store.piaClimb] at h
  | succ f ih =>
    intro a r g hg h
    obtain ⟨g, rfl⟩ : ∃ g', g = g' + 1 := ⟨g - 1, by omega⟩
    by_cases hc : ((a.offset.cmpNat 0) == Ordering.gt) = true
    · simp only [Store.piaClimb, if_pos hc] at h ⊢
      exact h
    · cases hget : s.get? a.node with
      | none =>
        simp only [Store.piaClimb, if_neg hc, hget] at h
        exact absurd h (by simp)
      | some node =>
        cases hpar : node.parent with
        | none =>
          simp only [Store.piaClimb, if_neg hc, hget, hpar] at h ⊢
          exact h
        | some pid =>
          cases hbind : (s.get? pid).bind (fun p => p.childIndex a.node) with
          | none =>
            simp only [Store.piaClimb, if_neg hc, hget, hpar, hbind] at h
            exact absurd h (by simp)
          | some ci =>
            simp only [Store.piaClimb, if_neg hc, hget, hpar, hbind] at h ⊢
            exact ih _ _ g (by omega) h

/-- Fuel monotonicity of the `previous_item_address` descending loop. -/
theorem piaDescend_mono {α : Type} (s : Store α) :
    ∀ (f : Nat) (a : Address) (r : Option Address) (g : Nat), f ≤ g →
      Store.piaDescend f s a = some r → Store.piaDescend g s a = some r := by
  intro f
  induction f with
  | zero => intro a r g _ h; simp [Store.piaDescend] at h
  | succ f ih =>
    intro a r g hg h
    obtain ⟨g, rfl⟩ : ∃ g', g = g' + 1 := ⟨g - 1, by omega⟩
    cases hget : s.get? a.node with
    | none => simp only [Store.piaDescend, hget] at h; exact absurd h (by simp)
    | some node =>
      cases hov : a.offset.value with
      | none =>
        simp only [Store.piaDescend, hget, hov] at h
        exact absurd h (by simp)
      | some o =>
        cases hch : node.childIdOpt o with
        | some childId =>
          cases hcg : s.get? childId with
          | none =>
            simp only [Store.piaDescend, hget, hov, hch, hcg] at h
            exact absurd h (by simp)
          | some child =>
            simp only [Store.piaDescend, hget, hov, hch, hcg] at h ⊢
            exact ih _ _ g (by omega) h
        | none =>
          simp only [Store.piaDescend, hget, hov, hch] at h ⊢
          exact piaClimb_mono s f a r g (by omega) h

/-- Fuel monotonicity of the `first_item_address` loop. -/
theorem firstItemAddressLoop_mono {α : Type} (s : Store α) :
    ∀ (f : Nat) (id : Nat) (r : Address) (g : Nat), f ≤ g →
      Tree.firstItemAddressLoop f s id = some r →
      Tree.firstItemAddressLoop g s id = some r := by
  intro f
  induction f with
  | zero => intro id r g _ h; simp [Tree.firstItemAddressLoop] at h
  | succ f ih =>
    intro id r g hg h
    obtain ⟨g, rfl⟩ : ∃ g', g = g' + 1 := ⟨g - 1, by omega⟩
    cases hget : s.get? id with
    | none =>
      simp only [Tree.firstItemAddressLoop, hget] at h
      exact absurd h (by simp)
    | some node =>
      cases hch : node.childIdOpt 0 with
      | some childId =>
        simp only [Tree.firstItemAddressLoop, hget, hch] at h ⊢
        exact ih _ _ g (by omega) h
      | none =>
        simp only [Tree.firstItemAddressLoop, hget, hch] at h ⊢
        exact h

/-- Fuel monotonicity of the `last_item_address` loop. -/
theorem lastItemAddressLoop_mono {α : Type} (s : Store α) :
    ∀ (f : Nat) (id : Nat) (r : Address) (g : Nat), f ≤ g →
      Tree.lastItemAddressLoop f s id = some r →
      Tree.lastItemAddressLoop g s id = some r := by
  intro f
  induction f with
  | zero => intro id r g _ h; simp [Tree.lastItemAddressLoop] at h
  | succ f ih =>
    intro id r g hg h
    obtain ⟨g, rfl⟩ : ∃ g', g = g' + 1 := ⟨g - 1, by omega⟩
    cases hget : s.get? id with
    | none =>
      simp only [Tree.lastItemAddressLoop, hget] at h
      exact absurd h (by simp)
    | some node =>
      cases hch : node.childIdOpt node.itemCount with
      | some childId =>
        simp only [Tree.lastItemAddressLoop, hget, hch] at h ⊢
        exact ih _ _ g (by omega) h
      | none =>
        simp only [Tree.lastItemAddressLoop, hget, hch] at h ⊢
        exact h

/-- A view with nonempty leaves has a nonempty address list. -/
theorem addrsT_ne {α : Type} (bt : DecT α) (h : bt.leavesNE) :
    bt.addrsT ≠ [] := by
  intro hc
  have hl := addrsT_length bt
  rw [hc] at hl
  exact itemsT_ne bt h (List.eq_nil_of_length_eq_zero hl.symm)

/-- Head of an append when the first part is nonempty. -/
theorem head?_append_left {γ : Type} (l l' : List γ) (h : l ≠ []) :
    (l ++ l').head? = l.head? := by
  cases l with
  | nil => exact absurd rfl h
  | cons x xs => rfl

/-- The head address of a leaf view. -/
theorem addrsT_head_leaf {α : Type} (id : Nat) (items : List α)
    (h : items ≠ []) :
    (DecT.addrsT (α := α) (.leafT id items)).head? =
      some ⟨id, .idx 0⟩ := by
  cases items with
  | nil => exact absurd rfl h
  | cons x xs => simp [DecT.addrsT, List.range_succ_eq_map]

/-- Descending with `next_item_address`'s inner loop from offset 0 of a
decoded subtree reaches the subtree's first item address. -/
theorem niaDescend_first {α : Type} (s : Store α) :
    ∀ (n : Nat) (bt : DecT α) (p : Option Nat) (id : Nat), bt.sizeT ≤ n →
      DecodesT s p id bt → bt.leavesNE →
      ∀ a, bt.addrsT.head? = some a →
      ∃ f, Store.niaDescend f s ⟨id, .idx 0⟩ = some (some a) := by
  intro n
  induction n with
  | zero =>
    intro bt p id hsz
    cases bt <;> simp [DecT.sizeT] at hsz
  | succ n ih =>
    intro bt p id hsz hdec hne a ha
    cases hdec with
    | leaf p id items hget =>
      rw [addrsT_head_leaf id items hne] at ha
      obtain rfl := Option.some.inj ha
      refine ⟨2, ?_⟩
      have hlt : Offset.ltNat (.idx 0) (Node.leaf (⟨p, items⟩ : Leaf α)).itemCount = true := by
        cases items with
        | nil => exact absurd rfl hne
        | cons x xs =>
          simp only [Offset.ltNat, Offset.cmpNat, Node.itemCount,
            Leaf.itemCount, List.length_cons]
          rw [Nat.compare_eq_lt.2 (Nat.succ_pos _)]
          rfl
      simp only [Store.niaDescend, hget, Offset.value, Node.childIdOpt,
        Store.niaClimb, hlt, if_pos]
    | internal p id bs t0 tbs hget hdec0 hdecB =>
      simp only [DecT.sizeT] at hsz
      have hne0 : t0.leavesNE := hne.1
      have hha : t0.addrsT.head? = some a := by
        rw [DecT.addrsT, head?_append_left _ _ (addrsT_ne t0 hne0)] at ha
        exact ha
      obtain ⟨f, hf⟩ :=
        ih t0 (some id) t0.rootId (by omega) hdec0 hne0 a hha
      refine ⟨f + 1, ?_⟩
      simp only [Store.niaDescend, hget, Offset.value, Node.childIdOpt,
        Internal.childIdOpt, if_pos rfl]
      exact hf

/-- `first_item_address`'s loop reaches the first item address of a decoded
subtree. -/
theorem firstItemAddressLoop_first {α : Type} (s : Store α) :
    ∀ (n : Nat) (bt : DecT α) (p : Option Nat) (id : Nat), bt.sizeT ≤ n →
      DecodesT s p id bt → bt.leavesNE →
      ∀ a, bt.addrsT.head? = some a →
      ∃ f, Tree.firstItemAddressLoop f s id = some a := by
  intro n
  induction n with
  | zero =>
    intro bt p id hsz
    cases bt <;> simp [DecT.sizeT] at hsz
  | succ n ih =>
    intro bt p id hsz hdec hne a ha
    cases hdec with
    | leaf p id items hget =>
      rw [addrsT_head_leaf id items hne] at ha
      obtain rfl := Option.some.inj ha
      refine ⟨1, ?_⟩
      simp only [Tree.firstItemAddressLoop, hget, Node.childIdOpt]
    | internal p id bs t0 tbs hget hdec0 hdecB =>
      simp only [DecT.sizeT] at hsz
      have hne0 : t0.leavesNE := hne.1
      have hha : t0.addrsT.head? = some a := by
        rw [DecT.addrsT, head?_append_left _ _ (addrsT_ne t0 hne0)] at ha
        exact ha
      obtain ⟨f, hf⟩ :=
        ih t0 (some id) t0.rootId (by omega) hdec0 hne0 a hha
      refine ⟨f + 1, ?_⟩
      simp only [Tree.firstItemAddressLoop, hget, Node.childIdOpt,
        Internal.childIdOpt, if_pos rfl]
      exact hf

/-- The root handle of a view occurs in its handle list. -/
theorem rootId_mem_idsT {α : Type} (bt : DecT α) : bt.rootId ∈ bt.idsT := by
  cases bt <;> simp [DecT.rootId, DecT.idsT]

/-- The root handle of a branch subtree occurs in the branch handle list. -/
theorem rootId_mem_idsB {α : Type} :
    ∀ (tbs : List (α × DecT α)) (x : α) (t : DecT α), (x, t) ∈ tbs →
      t.rootId ∈ idsB tbs := by
  intro tbs
  induction tbs with
  | nil => simp
  | cons hd rest ih =>
    obtain ⟨y, u⟩ := hd
    intro x t hm
    rcases List.mem_cons.1 hm with heq | hm'
    · rw [Prod.mk.injEq] at heq
      obtain ⟨rfl, rfl⟩ := heq
      simp only [idsB, List.mem_append]
      exact Or.inl (rootId_mem_idsT t)
    · simp only [idsB, List.mem_append]
      exact Or.inr (ih x t hm')

/-- Decoded branch lists give the branch child handles as the branch
subtree roots. -/
theorem decodesB_children {α : Type} {s : Store α} :
    ∀ {pid : Nat} {bs : List (Branch α)} {tbs : List (α × DecT α)},
      DecodesB s pid bs tbs →
      bs.map (fun b => b.child) = tbs.map (fun q => q.2.rootId) := by
  intro pid bs
  induction bs with
  | nil => intro tbs h; cases h; rfl
  | cons b rest ih =>
    intro tbs h
    cases h with
    | cons _ _ _ t trest hchild hdect hdecb =>
      simp only [List.map_cons, hchild, ih hdecb]

/-- Indexed access through a decoded branch list. -/
theorem decodesB_getElem {α : Type} {s : Store α} :
    ∀ {pid : Nat} {bs : List (Branch α)} {tbs : List (α × DecT α)},
      DecodesB s pid bs tbs →
      ∀ (j : Nat) (x : α) (t : DecT α), tbs[j]? = some (x, t) →
        bs[j]? = some ⟨x, t.rootId⟩ ∧ DecodesT s (some pid) t.rootId t := by
  intro pid bs
  induction bs with
  | nil => intro tbs h j x t hj; cases h; simp at hj
  | cons b rest ih =>
    intro tbs h j x t hj
    cases h with
    | cons _ _ _ u trest hchild hdect hdecb =>
      cases j with
      | zero =>
        simp only [List.getElem?_cons_zero, Option.some.injEq,
          Prod.mk.injEq] at hj
        obtain ⟨rfl, rfl⟩ := hj
        refine ⟨?_, hdect⟩
        simp only [List.getElem?_cons_zero, Option.some.injEq]
        rw [← hchild]
      | succ j =>
        simp only [List.getElem?_cons_succ] at hj ⊢
        exact ih hdecb j x t hj

/-- Handle-list `Nodup` yields `Nodup` of the branch subtree roots. -/
theorem idsB_nodup_roots {α : Type} :
    ∀ (tbs : List (α × DecT α)), (idsB tbs).Nodup →
      (tbs.map (fun q => q.2.rootId)).Nodup := by
  intro tbs
  induction tbs with
  | nil => simp
  | cons hd rest ih =>
    obtain ⟨y, u⟩ := hd
    intro h
    rw [idsB, List.nodup_append] at h
    obtain ⟨h1, h2, hdisj⟩ := h
    refine List.nodup_cons.2 ⟨?_, ih h2⟩
    intro hm
    obtain ⟨⟨x, t⟩, hmem, heq⟩ := List.mem_map.1 hm
    have ht : t.rootId ∈ idsB rest := rootId_mem_idsB rest x t hmem
    rw [show t.rootId = u.rootId from heq] at ht
    exact hdisj (rootId_mem_idsT u) ht

/-- `findIdx?` (with start accumulator `i`) on a list whose projections are
distinct finds the index of the `j`-th projection. -/
theorem findIdx?_proj_nodup_aux {γ : Type} (f : γ → Nat) :
    ∀ (l : List γ) (j v i : Nat), (l.map f).Nodup →
      (l.map f)[j]? = some v →
      l.findIdx? (fun b => decide (f b = v)) i = some (j + i) := by
  intro l
  induction l with
  | nil => intro j v i _ h; simp at h
  | cons c l ih =>
    intro j v i hnd hj
    rw [List.map_cons, List.nodup_cons] at hnd
    cases j with
    | zero =>
      simp only [List.map_cons, List.getElem?_cons_zero,
        Option.some.injEq] at hj
      subst hj
      rw [List.findIdx?_cons, if_pos (by simp)]
      simp
    | succ j =>
      simp only [List.map_cons, List.getElem?_cons_succ] at hj
      have hne : f c ≠ v := by
        intro hv
        exact hnd.1 (hv ▸ List.getElem?_mem hj)
      rw [List.findIdx?_cons, if_neg (by simp [hne])]
      rw [ih j v (i + 1) hnd.2 hj]
      congr 1
      omega

/-- `findIdx?` on a list whose projections are distinct finds the index of
the `j`-th projection. -/
theorem findIdx?_proj_nodup {γ : Type} (f : γ → Nat)
    (l : List γ) (j v : Nat) (hnd : (l.map f).Nodup)
    (hj : (l.map f)[j]? = some v) :
    l.findIdx? (fun b => decide (f b = v)) = some j := by
  have := findIdx?_proj_nodup_aux f l j v 0 hnd hj
  simpa using this

/-- Correctness of `child_index` on a decoded internal node with distinct
handles: the first child is at index 0, the `j`-th branch subtree at
`j + 1`. -/
theorem childIndex_of_decoded {α : Type} {s : Store α} {p : Option Nat}
    {id : Nat} {bs : List (Branch α)} {t0 : DecT α}
    {tbs : List (α × DecT α)}
    (hdecB : DecodesB s id bs tbs)
    (hnd : (DecT.idsT (.internalT id t0 tbs)).Nodup) :
    (Node.internal (⟨p, t0.rootId, bs⟩ : Internal α)).childIndex t0.rootId =
        some 0 ∧
      ∀ (j : Nat) (x : α) (t : DecT α), tbs[j]? = some (x, t) →
        (Node.internal (⟨p, t0.rootId, bs⟩ : Internal α)).childIndex t.rootId =
          some (j + 1) := by
  rw [DecT.idsT, List.nodup_cons, List.nodup_append] at hnd
  obtain ⟨-, hnd0, hndB, hdisj⟩ := hnd
  constructor
  · simp [Node.childIndex, Internal.childIndex]
  · intro j x t hj
    have hmem : (x, t) ∈ tbs := List.getElem?_mem hj
    have hrootB : t.rootId ∈ idsB tbs := rootId_mem_idsB tbs x t hmem
    have hne0 : t0.rootId ≠ t.rootId := by
      intro hv
      exact hdisj (rootId_mem_idsT t0) (hv ▸ hrootB)
    have hroots := decodesB_children hdecB
    have hfind : bs.findIdx? (fun b => decide (b.child = t.rootId)) =
        some j := by
      have hjv : (bs.map (fun b => b.child))[j]? = some t.rootId := by
        rw [hroots]
        rw [List.getElem?_map, hj]
        rfl
      exact findIdx?_proj_nodup (fun b => b.child) bs j t.rootId
        (hroots ▸ idsB_nodup_roots tbs hndB) hjv
    simp only [Node.childIndex, Internal.childIndex, if_neg hne0, hfind]

/-- One climbing step of `next_item_address` that returns the address. -/
theorem niaClimb_step_done {α : Type} (s : Store α) (f : Nat) (a : Address)
    (node : Node α) (hget : s.get? a.node = some node)
    (hlt : Offset.ltNat a.offset node.itemCount = true) :
    Store.niaClimb (f + 1) s a = some (some a) := by
  simp [Store.niaClimb, hget, hlt]

/-- One climbing step of `next_item_address` through the parent. -/
theorem niaClimb_step_up {α : Type} (s : Store α) (f : Nat) (a : Address)
    (node : Node α) (hget : s.get? a.node = some node)
    (hnotlt : Offset.ltNat a.offset node.itemCount = false)
    (pid : Nat) (hpar : node.parent = some pid) (ci : Nat)
    (hci : (s.get? pid).bind (fun q => q.childIndex a.node) = some ci) :
    Store.niaClimb (f + 1) s a = Store.niaClimb f s ⟨pid, .idx ci⟩ := by
  simp [Store.niaClimb, hget, hnotlt, hpar, hci]

/-- The climbing step of `next_item_address` at the root. -/
theorem niaClimb_step_root {α : Type} (s : Store α) (f : Nat) (a : Address)
    (node : Node α) (hget : s.get? a.node = some node)
    (hnotlt : Offset.ltNat a.offset node.itemCount = false)
    (hpar : node.parent = none) :
    Store.niaClimb (f + 1) s a = some none := by
  simp [Store.niaClimb, hget, hnotlt, hpar]

/-- One descending step of `next_item_address` into a child. -/
theorem niaDescend_step_child {α : Type} (s : Store α) (f : Nat) (a : Address)
    (node : Node α) (hget : s.get? a.node = some node) (o : Nat)
    (hov : a.offset.value = some o) (c : Nat)
    (hch : node.childIdOpt o = some c) :
    Store.niaDescend (f + 1) s a = Store.niaDescend f s ⟨c, .idx 0⟩ := by
  simp [Store.niaDescend, hget, hov, hch]

/-- The descending step of `next_item_address` at a childless offset. -/
theorem niaDescend_step_stop {α : Type} (s : Store α) (f : Nat) (a : Address)
    (node : Node α) (hget : s.get? a.node = some node) (o : Nat)
    (hov : a.offset.value = some o) (hch : node.childIdOpt o = none) :
    Store.niaDescend (f + 1) s a = Store.niaClimb f s a := by
  simp [Store.niaDescend, hget, hov, hch]

/-- `next_item_address` from an occupied offset starts by incrementing. -/
theorem nextItemAddress_step_lt {α : Type} (s : Store α) (f : Nat)
    (a : Address) (node : Node α) (hget : s.get? a.node = some node)
    (hcmp : a.offset.cmpNat node.itemCount = .lt) :
    Store.nextItemAddress f s a =
      Store.niaDescend f s ⟨a.node, a.offset.incr⟩ := by
  simp [Store.nextItemAddress, hget, hcmp]

/-- Inversion of the decode relation to the stored node. -/
theorem decodesT_get {α : Type} {s : Store α} {p : Option Nat} {id : Nat}
    {bt : DecT α} (h : DecodesT s p id bt) :
    ∃ node, s.get? id = some node ∧ node.parent = p ∧
      node.itemCount = bt.rootCount := by
  cases h with
  | leaf p id items hget => exact ⟨_, hget, rfl, rfl⟩
  | internal p id bs t0 tbs hget hdec0 hdecB =>
    refine ⟨_, hget, rfl, ?_⟩
    have hlen : bs.length = tbs.length := by
      have h2 := congrArg List.length (decodesB_children hdecB)
      simpa using h2
    simpa [Node.itemCount, Internal.itemCount, DecT.rootCount] using hlen

/-- `Nodup` of an internal view's handles restricts to the first child. -/
theorem nodup_first {α : Type} {id : Nat} {t0 : DecT α}
    {tbs : List (α × DecT α)}
    (h : (DecT.idsT (.internalT id t0 tbs)).Nodup) : t0.idsT.Nodup := by
  rw [DecT.idsT, List.nodup_cons, List.nodup_append] at h
  exact h.2.1

/-- `Nodup` of a branch handle list restricts to each member subtree. -/
theorem nodup_memberB {α : Type} :
    ∀ (tbs : List (α × DecT α)), (idsB tbs).Nodup →
      ∀ (x : α) (t : DecT α), (x, t) ∈ tbs → t.idsT.Nodup := by
  intro tbs
  induction tbs with
  | nil => simp
  | cons hd rest ih =>
    obtain ⟨y, u⟩ := hd
    intro h x t hm
    rw [idsB, List.nodup_append] at h
    rcases List.mem_cons.1 hm with heq | hm'
    · rw [Prod.mk.injEq] at heq
      obtain ⟨rfl, rfl⟩ := heq
      exact h.1
    · exact ih h.2.1 x t hm'

/-- Leaf-nonemptiness of a branch list restricts to each member subtree. -/
theorem leavesNE_memberB {α : Type} :
    ∀ (tbs : List (α × DecT α)), leavesNEB tbs →
      ∀ (x : α) (t : DecT α), (x, t) ∈ tbs → t.leavesNE := by
  intro tbs
  induction tbs with
  | nil => simp
  | cons hd rest ih =>
    obtain ⟨y, u⟩ := hd
    intro h x t hm
    rcases List.mem_cons.1 hm with heq | hm'
    · rw [Prod.mk.injEq] at heq
      obtain ⟨rfl, rfl⟩ := heq
      exact h.1
    · exact ih h.2 x t hm'

/-- Subtree sizes of branch members are bounded by the branch size. -/
theorem sizeT_memberB {α : Type} :
    ∀ (tbs : List (α × DecT α)) (x : α) (t : DecT α), (x, t) ∈ tbs →
      t.sizeT ≤ sizeB tbs := by
  intro tbs
  induction tbs with
  | nil => simp
  | cons hd rest ih =>
    obtain ⟨y, u⟩ := hd
    intro x t hm
    rcases List.mem_cons.1 hm with heq | hm'
    · rw [Prod.mk.injEq] at heq
      obtain ⟨rfl, rfl⟩ := heq
      simp only [sizeB]
      omega
    · have := ih x t hm'
      simp only [sizeB]
      omega

/-- A branch list contributes a nonempty address list. -/
theorem addrsB_ne {α : Type} (pid k : Nat) (hd : α × DecT α)
    (rest : List (α × DecT α)) : addrsB pid k (hd :: rest) ≠ [] := by
  obtain ⟨y, u⟩ := hd
  simp [addrsB]

/-- The last address contributed by a nonempty branch list is the last
address of its last subtree. -/
theorem addrsB_last {α : Type} :
    ∀ (tbs : List (α × DecT α)) (pid k : Nat), leavesNEB tbs → tbs ≠ [] →
      ∃ x t, tbs.getLast? = some (x, t) ∧
        (addrsB pid k tbs).getLast? = t.addrsT.getLast? := by
  intro tbs
  induction tbs with
  | nil => intro pid k _ h; exact absurd rfl h
  | cons hd rest ih =>
    obtain ⟨y, u⟩ := hd
    intro pid k hne _
    cases rest with
    | nil =>
      refine ⟨y, u, rfl, ?_⟩
      show ((⟨pid, .idx k⟩ :: u.addrsT) ++ addrsB pid (k + 1) []).getLast? = _
      rw [show addrsB pid (k + 1) ([] : List (α × DecT α)) = [] from rfl,
        List.append_nil,
        show (⟨pid, .idx k⟩ :: u.addrsT : List Address) =
          [⟨pid, .idx k⟩] ++ u.addrsT from rfl]
      exact List.getLast?_append_of_ne_nil _ (addrsT_ne u hne.1)
    | cons hd2 rest2 =>
      obtain ⟨x, t, hlast, haddr⟩ := ih pid (k + 1) hne.2 (by simp)
      refine ⟨x, t, ?_, ?_⟩
      · rw [List.getLast?_cons_cons]
        exact hlast
      · show ((⟨pid, .idx k⟩ :: u.addrsT) ++
            addrsB pid (k + 1) (hd2 :: rest2)).getLast? = _
        rw [List.getLast?_append_of_ne_nil _ (addrsB_ne pid (k + 1) hd2 rest2)]
        exact haddr

/-- The last address of a leaf view. -/
theorem addrsT_last_leaf {α : Type} (id : Nat) (items : List α)
    (h : items ≠ []) :
    (DecT.addrsT (α := α) (.leafT id items)).getLast? =
      some ⟨id, .idx (items.length - 1)⟩ := by
  rw [DecT.addrsT, List.getLast?_eq_getElem?]
  have hlen : ((List.range items.length).map
      (fun i => (⟨id, .idx i⟩ : Address))).length = items.length := by simp
  rw [hlen, List.getElem?_map]
  have hpos : 0 < items.length := List.length_pos.2 h
  rw [List.getElem?_range (by omega)]
  rfl

/-- Starting `next_item_address` at the last item address of a decoded
subtree reduces to climbing from the one-past-the-end offset of its root:
the walk escapes the subtree. -/
theorem nia_last_escape {α : Type} (s : Store α) :
    ∀ (n : Nat) (bt : DecT α) (p : Option Nat) (id : Nat), bt.sizeT ≤ n →
      DecodesT s p id bt → bt.idsT.Nodup → bt.leavesNE →
      ∀ a, bt.addrsT.getLast? = some a →
      ∀ r, (∃ f, Store.niaClimb f s ⟨id, .idx bt.rootCount⟩ = some r) →
      ∃ f, Store.nextItemAddress f s a = some r := by
  intro n
  induction n with
  | zero =>
    intro bt p id hsz
    cases bt <;> simp [DecT.sizeT] at hsz
  | succ n ih =>
    intro bt p id hsz hdec hnd hne a ha r hclimb
    obtain ⟨fc, hfc⟩ := hclimb
    cases hdec with
    | leaf p id items hget =>
      rw [addrsT_last_leaf id items hne] at ha
      obtain rfl := Option.some.inj ha
      have hcmp : Offset.cmpNat (.idx (items.length - 1))
          (Node.leaf (⟨p, items⟩ : Leaf α)).itemCount = .lt := by
        simp only [Offset.cmpNat, Node.itemCount, Leaf.itemCount]
        exact Nat.compare_eq_lt.2 (by
          have := List.length_pos.2 hne
          omega)
      refine ⟨fc + 1, ?_⟩
      have hix : items.length - 1 + 1 = items.length := by
        have := List.length_pos.2 hne
        omega
      have hincr : (Offset.idx (items.length - 1)).incr = .idx items.length := by
        simp only [Offset.incr, hix]
      rw [nextItemAddress_step_lt s (fc + 1) _ _ hget hcmp, hincr,
        niaDescend_step_stop s fc ⟨id, .idx items.length⟩ _ hget
          items.length rfl rfl]
      exact hfc
    | internal p id bs t0 tbs hget hdec0 hdecB =>
      simp only [DecT.sizeT] at hsz
      have hlen : bs.length = tbs.length := by
        have h2 := congrArg List.length (decodesB_children hdecB)
        simpa using h2
      cases htbs : tbs with
      | nil =>
        subst htbs
        -- the subtree is the first child only; its escape continues at
        -- offset 0 of `id`, which is also one-past-the-end (no items).
        have hnd0 : t0.idsT.Nodup := nodup_first hnd
        have hne0 : t0.leavesNE := hne.1
        have hla : t0.addrsT.getLast? = some a := by
          rw [DecT.addrsT] at ha
          rw [show addrsB id 0 ([] : List (α × DecT α)) = [] from rfl,
            List.append_nil] at ha
          exact ha
        refine ih t0 (some id) t0.rootId (by omega) hdec0 hnd0 hne0 a hla r ?_
        -- climbing from the first child's end continues at ⟨id, 0⟩
        obtain ⟨node0, hget0, hpar0, hcount0⟩ := decodesT_get hdec0
        have hci := (childIndex_of_decoded (p := p) hdecB hnd).1
        have hnotlt : Offset.ltNat (.idx t0.rootCount) node0.itemCount = false := by
          simp only [Offset.ltNat, Offset.cmpNat, hcount0]
          rw [Nat.compare_eq_eq.2 rfl]
          rfl
        refine ⟨fc + 1, ?_⟩
        rw [niaClimb_step_up s fc _ _ hget0 hnotlt id hpar0 0
          (by rw [hget]; exact hci)]
        simpa [DecT.rootCount] using hfc
      | cons hd rest =>
        subst htbs
        -- the last address lies in the last branch subtree
        have hlastB := addrsB_last (hd :: rest) id 0 hne.2 (by simp)
        obtain ⟨x, t, hlast, haddr⟩ := hlastB
        have hmem : (x, t) ∈ hd :: rest := by
          have := List.getLast?_eq_getElem? (hd :: rest)
          rw [this] at hlast
          exact List.getElem?_mem hlast
        have hj : (hd :: rest)[(hd :: rest).length - 1]? = some (x, t) := by
          rw [← List.getLast?_eq_getElem?]
          exact hlast
        obtain ⟨hbs, hdect⟩ := decodesB_getElem hdecB _ x t hj
        have hla : t.addrsT.getLast? = some a := by
          rw [DecT.addrsT,
            List.getLast?_append_of_ne_nil _ (addrsB_ne id 0 hd rest),
            haddr] at ha
          exact ha
        have hndB : (idsB (hd :: rest)).Nodup := by
          rw [DecT.idsT, List.nodup_cons, List.nodup_append] at hnd
          exact hnd.2.2.1
        refine ih t (some id) t.rootId
          (by
            have := sizeT_memberB (hd :: rest) x t hmem
            omega)
          hdect (nodup_memberB _ hndB x t hmem)
          (leavesNE_memberB _ hne.2 x t hmem) a hla r ?_
        -- climbing from the last branch's end continues at ⟨id, count⟩
        obtain ⟨nodet, hgett, hpart, hcountt⟩ := decodesT_get hdect
        have hci := (childIndex_of_decoded (p := p) hdecB hnd).2
          ((hd :: rest).length - 1) x t hj
        have hnotlt : Offset.ltNat (.idx t.rootCount) nodet.itemCount = false := by
          simp only [Offset.ltNat, Offset.cmpNat, hcountt]
          rw [Nat.compare_eq_eq.2 rfl]
          rfl
        refine ⟨fc + 1, ?_⟩
        rw [niaClimb_step_up s fc _ _ hgett hnotlt id hpart
          ((hd :: rest).length - 1 + 1)
          (by rw [hget]; exact hci)]
        have hixv : (hd :: rest).length - 1 + 1 = (hd :: rest).length := by
          simp
        rw [hixv]
        simpa [DecT.rootCount] using hfc

/-- The climbing step of `previous_item_address` at a positive offset. -/
theorem piaClimb_step_pos {α : Type} (s : Store α) (f : Nat) (a : Address)
    (hg : (a.offset.cmpNat 0 == Ordering.gt) = true) :
    Store.piaClimb (f + 1) s a = some (some ⟨a.node, a.offset.decr⟩) := by
  simp [Store.piaClimb, hg]

/-- One climbing step of `previous_item_address` through the parent. -/
theorem piaClimb_step_up {α : Type} (s : Store α) (f : Nat) (a : Address)
    (node : Node α) (hng : (a.offset.cmpNat 0 == Ordering.gt) = false)
    (hget : s.get? a.node = some node)
    (pid : Nat) (hpar : node.parent = some pid) (ci : Nat)
    (hci : (s.get? pid).bind (fun q => q.childIndex a.node) = some ci) :
    Store.piaClimb (f + 1) s a = Store.piaClimb f s ⟨pid, .idx ci⟩ := by
  simp [Store.piaClimb, hng, hget, hpar, hci]

/-- The climbing step of `previous_item_address` at the root. -/
theorem piaClimb_step_root {α : Type} (s : Store α) (f : Nat) (a : Address)
    (node : Node α) (hng : (a.offset.cmpNat 0 == Ordering.gt) = false)
    (hget : s.get? a.node = some node) (hpar : node.parent = none) :
    Store.piaClimb (f + 1) s a = some none := by
  simp [Store.piaClimb, hng, hget, hpar]

/-- One descending step of `previous_item_address` into a child. -/
theorem piaDescend_step_child {α : Type} (s : Store α) (f : Nat) (a : Address)
    (node : Node α) (hget : s.get? a.node = some node) (o : Nat)
    (hov : a.offset.value = some o) (c : Nat)
    (hch : node.childIdOpt o = some c) (child : Node α)
    (hgc : s.get? c = some child) :
    Store.piaDescend (f + 1) s a =
      Store.piaDescend f s ⟨c, .idx child.itemCount⟩ := by
  simp [Store.piaDescend, hget, hov, hch, hgc]

/-- The descending step of `previous_item_address` at a childless offset. -/
theorem piaDescend_step_stop {α : Type} (s : Store α) (f : Nat) (a : Address)
    (node : Node α) (hget : s.get? a.node = some node) (o : Nat)
    (hov : a.offset.value = some o) (hch : node.childIdOpt o = none) :
    Store.piaDescend (f + 1) s a = Store.piaClimb f s a := by
  simp [Store.piaDescend, hget, hov, hch]

/-- The head address contributed by a nonempty branch list. -/
theorem addrsB_head {α : Type} (pid k : Nat) (x : α) (t : DecT α)
    (rest : List (α × DecT α)) :
    (addrsB pid k ((x, t) :: rest)).head? = some ⟨pid, .idx k⟩ := rfl

/-- `Offset.cmpNat` on an index strictly below the bound. -/
theorem cmpNat_idx_lt {i m : Nat} (h : i < m) :
    Offset.cmpNat (.idx i) m = .lt := by
  simp only [Offset.cmpNat]
  exact Nat.compare_eq_lt.2 h

/-- `Offset.ltNat` holds on an index strictly below the bound. -/
theorem ltNat_idx_true {i m : Nat} (h : i < m) :
    Offset.ltNat (.idx i) m = true := by
  simp only [Offset.ltNat, Offset.cmpNat]
  rw [Nat.compare_eq_lt.2 h]
  rfl

/-- `Offset.ltNat` fails on an index at or above the bound. -/
theorem ltNat_idx_false {i m : Nat} (h : m ≤ i) :
    Offset.ltNat (.idx i) m = false := by
  simp only [Offset.ltNat, Offset.cmpNat]
  rcases Nat.eq_or_lt_of_le h with heq | hlt
  · rw [Nat.compare_eq_eq.2 heq.symm]
    rfl
  · rw [Nat.compare_eq_gt.2 hlt]
    rfl

/-- Adjacency of `next_item_address` along the addresses contributed by a
decoded branch list, given the adjacency property (`ihT`) for subtrees of
bounded size. -/
theorem nia_chainB {α : Type} (s : Store α) (n : Nat)
    (ihT : ∀ (bt : DecT α) (p : Option Nat) (id : Nat), bt.sizeT ≤ n →
      DecodesT s p id bt → bt.idsT.Nodup → bt.leavesNE →
      List.Chain' (NextA s) bt.addrsT) :
    ∀ (tbs : List (α × DecT α)) (id k : Nat) (node : Node α),
      s.get? id = some node →
      sizeB tbs ≤ n →
      k + tbs.length = node.itemCount →
      (∀ x t, (x, t) ∈ tbs → t.idsT.Nodup) →
      (∀ x t, (x, t) ∈ tbs → t.leavesNE) →
      (∀ x t, (x, t) ∈ tbs → DecodesT s (some id) t.rootId t) →
      (∀ (j : Nat) (x : α) (t : DecT α), tbs[j]? = some (x, t) →
        node.childIdOpt (k + j + 1) = some t.rootId ∧
        node.childIndex t.rootId = some (k + j + 1)) →
      List.Chain' (NextA s) (addrsB id k tbs) := by
  intro tbs
  induction tbs with
  | nil =>
    intro id k node _ _ _ _ _ _ _
    rw [show addrsB id k ([] : List (α × DecT α)) = [] from rfl]
    exact List.chain'_nil
  | cons hd rest ih =>
    obtain ⟨x, t⟩ := hd
    intro id k node hget hsz hcount hnd hne hdec hch
    have hdect : DecodesT s (some id) t.rootId t :=
      hdec x t (List.mem_cons_self _ _)
    have hndt : t.idsT.Nodup := hnd x t (List.mem_cons_self _ _)
    have hnet : t.leavesNE := hne x t (List.mem_cons_self _ _)
    have hszt : t.sizeT ≤ n := by
      rw [show sizeB ((x, t) :: rest) = t.sizeT + sizeB rest from rfl] at hsz
      omega
    have hch0 : node.childIdOpt (k + 1) = some t.rootId ∧
        node.childIndex t.rootId = some (k + 1) := by
      have := hch 0 x t (by simp)
      simpa using this
    have hklt : k < node.itemCount := by
      rw [List.length_cons] at hcount
      omega
    show List.Chain' (NextA s)
      ((⟨id, .idx k⟩ :: t.addrsT) ++ addrsB id (k + 1) rest)
    rw [List.chain'_append]
    refine ⟨?_, ?_, ?_⟩
    · rw [List.chain'_cons']
      refine ⟨?_, ihT t (some id) t.rootId hszt hdect hndt hnet⟩
      intro b hb
      rw [Option.mem_def] at hb
      obtain ⟨fd, hfd⟩ := niaDescend_first s t.sizeT t (some id) t.rootId
        le_rfl hdect hnet b hb
      refine ⟨fd + 2, ?_⟩
      rw [nextItemAddress_step_lt s (fd + 2) _ _ hget (cmpNat_idx_lt hklt),
        show (⟨id, (Offset.idx k).incr⟩ : Address) = ⟨id, .idx (k + 1)⟩
          from rfl,
        niaDescend_step_child s (fd + 1) ⟨id, .idx (k + 1)⟩ node hget
          (k + 1) rfl t.rootId hch0.1]
      exact niaDescend_mono s fd _ _ (fd + 1) (by omega) hfd
    · refine ih id (k + 1) node hget ?_ ?_ ?_ ?_ ?_ ?_
      · rw [show sizeB ((x, t) :: rest) = t.sizeT + sizeB rest from rfl] at hsz
        omega
      · rw [List.length_cons] at hcount
        omega
      · exact fun y u hm => hnd y u (List.mem_cons_of_mem _ hm)
      · exact fun y u hm => hne y u (List.mem_cons_of_mem _ hm)
      · exact fun y u hm => hdec y u (List.mem_cons_of_mem _ hm)
      · intro j y u hj
        have h := hch (j + 1) y u (by simpa using hj)
        have hidx : k + (j + 1) + 1 = k + 1 + j + 1 := by omega
        rw [hidx] at h
        exact h
    · intro a ha b hb
      cases rest with
      | nil =>
        rw [show addrsB id (k + 1) ([] : List (α × DecT α)) = [] from rfl] at hb
        simp at hb
      | cons hd2 rest2 =>
        obtain ⟨x2, t2⟩ := hd2
        rw [Option.mem_def, addrsB_head] at hb
        obtain rfl := Option.some.inj hb
        rw [Option.mem_def,
          show (⟨id, .idx k⟩ :: t.addrsT : List Address) =
            [⟨id, .idx k⟩] ++ t.addrsT from rfl,
          List.getLast?_append_of_ne_nil _ (addrsT_ne t hnet)] at ha
        have hk1lt : k + 1 < node.itemCount := by
          rw [List.length_cons, List.length_cons] at hcount
          omega
        refine nia_last_escape s t.sizeT t (some id) t.rootId le_rfl
          hdect hndt hnet a ha (some ⟨id, .idx (k + 1)⟩) ⟨2, ?_⟩
        obtain ⟨nodet, hgett, hpart, hcountt⟩ := decodesT_get hdect
        have hnotlt : Offset.ltNat (.idx t.rootCount) nodet.itemCount
            = false := by
          rw [hcountt]
          exact ltNat_idx_false le_rfl
        rw [niaClimb_step_up s 1 _ _ hgett hnotlt id hpart (k + 1)
            (by rw [hget]; exact hch0.2),
          niaClimb_step_done s 0 _ _ hget (ltNat_idx_true hk1lt)]

/-- Every pair of in-order adjacent addresses of a decoded subtree is
related by `next_item_address`. -/
theorem nia_chain {α : Type} (s : Store α) :
    ∀ (n : Nat) (bt : DecT α) (p : Option Nat) (id : Nat), bt.sizeT ≤ n →
      DecodesT s p id bt → bt.idsT.Nodup → bt.leavesNE →
      List.Chain' (NextA s) bt.addrsT := by
  intro n
  induction n with
  | zero =>
    intro bt p id hsz
    cases bt <;> simp [DecT.sizeT] at hsz
  | succ n ih =>
    intro bt p id hsz hdec hnd hne
    cases hdec with
    | leaf p id items hget =>
      rw [DecT.addrsT, List.chain'_map]
      cases hlen : items.length with
      | zero => simp
      | succ m =>
        rw [List.chain'_range_succ]
        intro i hi
        have hcmp : Offset.cmpNat (.idx i)
            (Node.leaf (⟨p, items⟩ : Leaf α)).itemCount = .lt := by
          simp only [Node.itemCount, Leaf.itemCount, hlen]
          exact cmpNat_idx_lt (by omega)
        have hlt : Offset.ltNat (.idx (i + 1))
            (Node.leaf (⟨p, items⟩ : Leaf α)).itemCount = true := by
          simp only [Node.itemCount, Leaf.itemCount, hlen]
          exact ltNat_idx_true (by omega)
        refine ⟨2, ?_⟩
        rw [nextItemAddress_step_lt s 2 _ _ hget hcmp,
          show (⟨id, (Offset.idx i).incr⟩ : Address) = ⟨id, .idx (i + 1)⟩
            from rfl,
          niaDescend_step_stop s 1 ⟨id, .idx (i + 1)⟩ _ hget (i + 1) rfl rfl,
          niaClimb_step_done s 0 _ _ hget hlt]
    | internal p id bs t0 tbs hget hdec0 hdecB =>
      have hszt : 1 + t0.sizeT + sizeB tbs ≤ n + 1 := by
        simpa [DecT.sizeT] using hsz
      have hlen : bs.length = tbs.length := by
        have h2 := congrArg List.length (decodesB_children hdecB)
        simpa using h2
      have hndB : (idsB tbs).Nodup := by
        rw [DecT.idsT, List.nodup_cons, List.nodup_append] at hnd
        exact hnd.2.2.1
      have hcount : 0 + tbs.length =
          (Node.internal (⟨p, t0.rootId, bs⟩ : Internal α)).itemCount := by
        simp only [Node.itemCount, Internal.itemCount]
        omega
      rw [DecT.addrsT, List.chain'_append]
      refine ⟨?_, ?_, ?_⟩
      · exact ih t0 (some id) t0.rootId (by omega) hdec0 (nodup_first hnd)
          hne.1
      · refine nia_chainB s n ih tbs id 0 _ hget (by omega) hcount
          (fun y u hm => nodup_memberB tbs hndB y u hm)
          (fun y u hm => leavesNE_memberB tbs hne.2 y u hm)
          (fun y u hm => ?_) ?_
        · obtain ⟨j, hj⟩ := List.mem_iff_getElem?.1 hm
          exact (decodesB_getElem hdecB j y u hj).2
        · intro j y u hj
          refine ⟨?_, ?_⟩
          · have hbsj := (decodesB_getElem hdecB j y u hj).1
            simp only [Node.childIdOpt, Internal.childIdOpt,
              if_neg (by omega : ¬ 0 + j + 1 = 0)]
            rw [show 0 + j + 1 - 1 = j from by omega, hbsj]
            rfl
          · have h := (childIndex_of_decoded (p := p)
              hdecB hnd).2 j y u hj
            rw [show 0 + j + 1 = j + 1 from by omega]
            exact h
      · intro a ha b hb
        cases htbs : tbs with
        | nil =>
          rw [htbs] at hb
          rw [show addrsB id 0 ([] : List (α × DecT α)) = [] from rfl] at hb
          simp at hb
        | cons hd1 rest1 =>
          obtain ⟨x1, t1⟩ := hd1
          rw [htbs, Option.mem_def, addrsB_head] at hb
          obtain rfl := Option.some.inj hb
          rw [Option.mem_def] at ha
          have h0lt : 0 <
              (Node.internal (⟨p, t0.rootId, bs⟩ : Internal α)).itemCount := by
            rw [htbs, List.length_cons] at hcount
            omega
          refine nia_last_escape s t0.sizeT t0 (some id) t0.rootId le_rfl
            hdec0 (nodup_first hnd) hne.1 a ha (some ⟨id, .idx 0⟩) ⟨2, ?_⟩
          obtain ⟨node0, hget0, hpar0, hcount0⟩ := decodesT_get hdec0
          have hnotlt : Offset.ltNat (.idx t0.rootCount) node0.itemCount
              = false := by
            rw [hcount0]
            exact ltNat_idx_false le_rfl
          have hci := (childIndex_of_decoded (p := p)
            hdecB hnd).1
          rw [niaClimb_step_up s 1 _ _ hget0 hnotlt id hpar0 0
              (by rw [hget]; exact hci),
            niaClimb_step_done s 0 _ _ hget (ltNat_idx_true h0lt)]

/-- `zip` distributes over `append` when the first parts have equal
length. -/
theorem zip_append_eq {γ δ : Type} :
    ∀ (l₁ : List γ) (l₂ : List δ) (r₁ : List γ) (r₂ : List δ),
      l₁.length = l₂.length →
      (l₁ ++ r₁).zip (l₂ ++ r₂) = l₁.zip l₂ ++ r₁.zip r₂ := by
  intro l₁
  induction l₁ with
  | nil =>
    intro l₂ r₁ r₂ h
    rw [List.length_nil] at h
    rw [List.eq_nil_of_length_eq_zero h.symm]
    rfl
  | cons c l ih =>
    intro l₂ r₁ r₂ h
    cases l₂ with
    | nil => simp at h
    | cons d l' =>
      simp only [List.length_cons, Nat.add_right_cancel_iff] at h
      simp only [List.cons_append, List.zip_cons_cons]
      rw [ih l' r₁ r₂ h]

/-- Indexing a `zip` indexes both components. -/
theorem zip_getElem?_eq {γ δ : Type} :
    ∀ (l : List γ) (l' : List δ) (i : Nat) (q : γ × δ),
      (l.zip l')[i]? = some q → l[i]? = some q.1 ∧ l'[i]? = some q.2 := by
  intro l
  induction l with
  | nil => intro l' i q h; simp at h
  | cons c lr ih =>
    intro l' i q h
    cases l' with
    | nil => simp at h
    | cons d l'' =>
      cases i with
      | zero =>
        simp only [List.zip_cons_cons, List.getElem?_cons_zero,
          Option.some.injEq] at h
        subst h
        exact ⟨by simp, by simp⟩
      | succ i =>
        simp only [List.zip_cons_cons, List.getElem?_cons_succ] at h ⊢
        exact ih l'' i q h

/-- Every in-order address of a decoded branch list reads its in-order
item, given the same property (`ihT`) for subtrees of bounded size. -/
theorem addrs_items_readB {α : Type} (s : Store α) (n : Nat)
    (ihT : ∀ (bt : DecT α) (p : Option Nat) (id : Nat), bt.sizeT ≤ n →
      DecodesT s p id bt →
      ∀ q ∈ bt.addrsT.zip bt.itemsT,
        ∃ node, s.get? q.1.node = some node ∧
          node.item q.1.offset = some (some q.2)) :
    ∀ (tbs : List (α × DecT α)) (id k : Nat) (node : Node α),
      s.get? id = some node →
      sizeB tbs ≤ n →
      (∀ (j : Nat) (x : α) (t : DecT α), tbs[j]? = some (x, t) →
        node.item (.idx (k + j)) = some (some x)) →
      (∀ x t, (x, t) ∈ tbs → DecodesT s (some id) t.rootId t) →
      ∀ q ∈ (addrsB id k tbs).zip (itemsB tbs),
        ∃ nd, s.get? q.1.node = some nd ∧
          nd.item q.1.offset = some (some q.2) := by
  intro tbs
  induction tbs with
  | nil =>
    intro id k node _ _ _ _ q hq
    rw [show addrsB id k ([] : List (α × DecT α)) = [] from rfl] at hq
    simp at hq
  | cons hd rest ih =>
    obtain ⟨x, t⟩ := hd
    intro id k node hget hsz hitem hdec q hq
    have hdect : DecodesT s (some id) t.rootId t :=
      hdec x t (List.mem_cons_self _ _)
    rw [show addrsB id k ((x, t) :: rest) =
        (⟨id, .idx k⟩ :: t.addrsT) ++ addrsB id (k + 1) rest from rfl,
      show itemsB ((x, t) :: rest) = (x :: t.itemsT) ++ itemsB rest
        from rfl,
      zip_append_eq _ _ _ _ (by simp [addrsT_length t]),
      List.zip_cons_cons] at hq
    rcases List.mem_append.1 hq with hq1 | hq2
    · rcases List.mem_cons.1 hq1 with heq | hqt
      · subst heq
        refine ⟨node, hget, ?_⟩
        have := hitem 0 x t (by simp)
        simpa using this
      · exact ihT t (some id) t.rootId
          (by
            rw [show sizeB ((x, t) :: rest) = t.sizeT + sizeB rest
              from rfl] at hsz
            omega)
          hdect q hqt
    · refine ih id (k + 1) node hget ?_ ?_ ?_ q hq2
      · rw [show sizeB ((x, t) :: rest) = t.sizeT + sizeB rest from rfl]
          at hsz
        omega
      · intro j y u hj
        have h := hitem (j + 1) y u (by simpa using hj)
        rw [show k + (j + 1) = k + 1 + j from by omega] at h
        exact h
      · exact fun y u hm => hdec y u (List.mem_cons_of_mem _ hm)

/-- Every in-order address of a decoded subtree reads its in-order item. -/
theorem addrs_items_read {α : Type} (s : Store α) :
    ∀ (n : Nat) (bt : DecT α) (p : Option Nat) (id : Nat), bt.sizeT ≤ n →
      DecodesT s p id bt →
      ∀ q ∈ bt.addrsT.zip bt.itemsT,
        ∃ node, s.get? q.1.node = some node ∧
          node.item q.1.offset = some (some q.2) := by
  intro n
  induction n with
  | zero =>
    intro bt p id hsz
    cases bt <;> simp [DecT.sizeT] at hsz
  | succ n ih =>
    intro bt p id hsz hdec q hq
    cases hdec with
    | leaf p id items hget =>
      rw [DecT.addrsT, DecT.itemsT] at hq
      obtain ⟨j, hj⟩ := List.mem_iff_getElem?.1 hq
      obtain ⟨hja, hji⟩ := zip_getElem?_eq _ _ j q hj
      rw [List.getElem?_map] at hja
      have hjlt : j < items.length := by
        by_contra hge
        rw [List.getElem?_eq_none (by
          simpa using Nat.le_of_not_lt hge)] at hja
        simp at hja
      rw [List.getElem?_range hjlt] at hja
      have hja' : (⟨id, .idx j⟩ : Address) = q.1 := by simpa using hja
      refine ⟨.leaf ⟨p, items⟩, by rw [← hja']; exact hget, ?_⟩
      rw [← hja']
      simp only [Node.item, Leaf.item, Offset.value]
      rw [hji]
    | internal p id bs t0 tbs hget hdec0 hdecB =>
      have hszt : 1 + t0.sizeT + sizeB tbs ≤ n + 1 := by
        simpa [DecT.sizeT] using hsz
      rw [DecT.addrsT, DecT.itemsT,
        zip_append_eq _ _ _ _ (addrsT_length t0)] at hq
      rcases List.mem_append.1 hq with hq1 | hq2
      · exact ih t0 (some id) t0.rootId (by omega) hdec0 q hq1
      · refine addrs_items_readB s n ih tbs id 0 _ hget (by omega)
          ?_ ?_ q hq2
        · intro j y u hj
          have hbsj := (decodesB_getElem hdecB j y u hj).1
          simp only [Node.item, Internal.item, Offset.value]
          rw [show 0 + j = j from by omega, hbsj]
          rfl
        · intro y u hm
          obtain ⟨j, hj⟩ := List.mem_iff_getElem?.1 hm
          exact (decodesB_getElem hdecB j y u hj).2

/-- One yielding step of the forward iterator loop. -/
theorem iterCollect_step {α : Type} (s : Store α) (fuel n : Nat)
    (a : Address) (node : Node α) (x : α) (next : Option Address)
    (hget : s.get? a.node = some node)
    (hitem : node.item a.offset = some (some x))
    (hnext : Store.nextItemAddress fuel s a = some next) :
    Tree.iterCollect fuel s (n + 1) (some a) =
      (Tree.iterCollect fuel s n next).map (fun xs => x :: xs) := by
  simp [Tree.iterCollect, hget, hitem, hnext]

/-- Running the forward iterator loop over a chained, readable list of
address-item pairs yields exactly the items. -/
theorem iterCollect_run {α : Type} (s : Store α) :
    ∀ (ps : List (Address × α)) (q0 ql : Address × α)
      (tail : Option Address),
      List.Chain' (fun q q' => NextA s q.1 q'.1) (q0 :: ps) →
      (∀ q ∈ q0 :: ps, ∃ node, s.get? q.1.node = some node ∧
        node.item q.1.offset = some (some q.2)) →
      (q0 :: ps).getLast? = some ql →
      (∃ f, Store.nextItemAddress f s ql.1 = some tail) →
      ∃ F, ∀ fuel, F ≤ fuel →
        Tree.iterCollect fuel s (ps.length + 1) (some q0.1) =
          some ((q0 :: ps).map Prod.snd) := by
  intro ps
  induction ps with
  | nil =>
    intro q0 ql tail _ hread hlast hesc
    obtain ⟨fe, he⟩ := hesc
    obtain rfl : q0 = ql := by simpa using hlast
    obtain ⟨node, hget, hitem⟩ := hread q0 (List.mem_cons_self _ _)
    refine ⟨fe, fun fuel hf => ?_⟩
    have hnext : Store.nextItemAddress fuel s q0.1 = some tail :=
      nextItemAddress_mono s fe q0.1 tail fuel hf he
    simp [Tree.iterCollect, hget, hitem, hnext]
  | cons q1 ps ih =>
    intro q0 ql tail hchain hread hlast hesc
    rw [List.chain'_cons] at hchain
    obtain ⟨⟨fn, hn⟩, hchain2⟩ := hchain
    rw [List.getLast?_cons_cons] at hlast
    obtain ⟨F2, hF2⟩ := ih q1 ql tail hchain2
      (fun q hq => hread q (List.mem_cons_of_mem _ hq)) hlast hesc
    obtain ⟨node, hget, hitem⟩ := hread q0 (List.mem_cons_self _ _)
    refine ⟨max fn F2, fun fuel hf => ?_⟩
    have hnext : Store.nextItemAddress fuel s q0.1 = some (some q1.1) :=
      nextItemAddress_mono s fn q0.1 (some q1.1) fuel
        (le_of_max_le_left hf) hn
    rw [List.length_cons,
      iterCollect_step s fuel (ps.length + 1) q0.1 node q0.2 (some q1.1)
        hget hitem hnext,
      hF2 fuel (le_of_max_le_right hf)]
    simp

/-- Running the backward iterator loop over a chained, readable list of
address-item pairs yields exactly the items. -/
theorem iterBackCollect_run {α : Type} (t : Tree α) :
    ∀ (ps : List (Address × α)) (prev : Address),
      (∀ q, ps.head? = some q → PrevA t.nodes prev q.1) →
      List.Chain' (fun q q' => PrevA t.nodes q.1 q'.1) ps →
      (∀ q ∈ ps, t.getAt q.1 = some (some q.2)) →
      ∃ F, ∀ fuel, F ≤ fuel →
        Tree.iterBackCollect fuel t ps.length (some prev) =
          some (ps.map Prod.snd) := by
  intro ps
  induction ps with
  | nil =>
    intro prev _ _ _
    exact ⟨0, fun fuel _ => by simp [Tree.iterBackCollect]⟩
  | cons q ps ih =>
    intro prev hhead hchain hread
    obtain ⟨fp, hp⟩ := hhead q rfl
    rw [List.chain'_cons'] at hchain
    obtain ⟨hhead2, hchain2⟩ := hchain
    obtain ⟨F2, hF2⟩ := ih q.1
      (fun q' hq' => hhead2 q' (Option.mem_def.2 hq')) hchain2
      (fun q' hq' => hread q' (List.mem_cons_of_mem _ hq'))
    have hq : t.getAt q.1 = some (some q.2) :=
      hread q (List.mem_cons_self _ _)
    refine ⟨max fp F2, fun fuel hf => ?_⟩
    have hprev : Store.previousItemAddress fuel t.nodes prev =
        some (some q.1) := by
      rw [Store.previousItemAddress]
      rw [Store.previousItemAddress] at hp
      exact piaDescend_mono t.nodes fp prev (some q.1) fuel
        (le_of_max_le_left hf) hp
    simp only [List.length_cons, Tree.iterBackCollect, hprev, hq]
    rw [hF2 fuel (le_of_max_le_right hf)]
    simp

/-- `Offset.cmpNat` against `0` at a positive index. -/
theorem cmpNat_gt_zero (i : Nat) :
    (Offset.cmpNat (.idx (i + 1)) 0 == Ordering.gt) = true := by
  simp only [Offset.cmpNat]
  rw [Nat.compare_eq_gt.2 (Nat.succ_pos i)]
  rfl

/-- Descending with `previous_item_address`'s outer loop from the
one-past-the-end offset of a decoded subtree reaches the subtree's last
item address. -/
theorem piaDescend_last {α : Type} (s : Store α) :
    ∀ (n : Nat) (bt : DecT α) (p : Option Nat) (id : Nat), bt.sizeT ≤ n →
      DecodesT s p id bt → bt.leavesNE →
      ∀ a, bt.addrsT.getLast? = some a →
      ∃ f, Store.piaDescend f s ⟨id, .idx bt.rootCount⟩ = some (some a) := by
  intro n
  induction n with
  | zero =>
    intro bt p id hsz
    cases bt <;> simp [DecT.sizeT] at hsz
  | succ n ih =>
    intro bt p id hsz hdec hne a ha
    cases hdec with
    | leaf p id items hget =>
      rw [addrsT_last_leaf id items hne] at ha
      obtain rfl := Option.some.inj ha
      have hpos : 0 < items.length := List.length_pos.2 hne
      have hgt : (Offset.cmpNat (.idx items.length) 0
          == Ordering.gt) = true := by
        simp only [Offset.cmpNat]
        rw [Nat.compare_eq_gt.2 hpos]
        rfl
      refine ⟨2, ?_⟩
      rw [show DecT.rootCount (DecT.leafT id items) = items.length from rfl,
        piaDescend_step_stop s 1 ⟨id, .idx items.length⟩ _ hget
          items.length rfl rfl,
        piaClimb_step_pos s 0 ⟨id, .idx items.length⟩ hgt]
      cases hl : items.length with
      | zero => omega
      | succ m =>
        rfl
    | internal p id bs t0 tbs hget hdec0 hdecB =>
      simp only [DecT.sizeT] at hsz
      cases htbs : tbs with
      | nil =>
        subst htbs
        have hla : t0.addrsT.getLast? = some a := by
          rw [DecT.addrsT,
            show addrsB id 0 ([] : List (α × DecT α)) = [] from rfl,
            List.append_nil] at ha
          exact ha
        obtain ⟨node0, hget0, hpar0, hcount0⟩ := decodesT_get hdec0
        obtain ⟨fd, hfd⟩ :=
          ih t0 (some id) t0.rootId (by omega) hdec0 hne.1 a hla
        refine ⟨fd + 1, ?_⟩
        rw [show DecT.rootCount
            (DecT.internalT id t0 ([] : List (α × DecT α))) = 0 from rfl,
          piaDescend_step_child s fd ⟨id, .idx 0⟩ _ hget 0 rfl t0.rootId
            (by simp [Node.childIdOpt, Internal.childIdOpt]) node0 hget0,
          hcount0]
        exact hfd
      | cons hd rest =>
        subst htbs
        have hlastB := addrsB_last (hd :: rest) id 0 hne.2 (by simp)
        obtain ⟨x, t, hlast, haddr⟩ := hlastB
        have hmem : (x, t) ∈ hd :: rest := by
          have := List.getLast?_eq_getElem? (hd :: rest)
          rw [this] at hlast
          exact List.getElem?_mem hlast
        have hj : (hd :: rest)[(hd :: rest).length - 1]? = some (x, t) := by
          rw [← List.getLast?_eq_getElem?]
          exact hlast
        obtain ⟨hbs, hdect⟩ := decodesB_getElem hdecB _ x t hj
        have hla : t.addrsT.getLast? = some a := by
          rw [DecT.addrsT,
            List.getLast?_append_of_ne_nil _ (addrsB_ne id 0 hd rest),
            haddr] at ha
          exact ha
        obtain ⟨nodet, hgett, hpart, hcountt⟩ := decodesT_get hdect
        obtain ⟨fd, hfd⟩ := ih t (some id) t.rootId
          (by
            have := sizeT_memberB (hd :: rest) x t hmem
            omega)
          hdect (leavesNE_memberB _ hne.2 x t hmem) a hla
        have hch : Node.childIdOpt
            (.internal (⟨p, t0.rootId, bs⟩ : Internal α))
            ((hd :: rest).length) = some t.rootId := by
          simp only [Node.childIdOpt, Internal.childIdOpt,
            if_neg (by simp : ¬ (hd :: rest).length = 0)]
          rw [hbs]
          rfl
        refine ⟨fd + 1, ?_⟩
        rw [show DecT.rootCount (DecT.internalT id t0 (hd :: rest)) =
            (hd :: rest).length from rfl,
          piaDescend_step_child s fd ⟨id, .idx (hd :: rest).length⟩ _ hget
            ((hd :: rest).length) rfl t.rootId hch nodet hgett,
          hcountt]
        exact hfd

/-- `last_item_address`'s loop reaches the last item address of a decoded
subtree. -/
theorem lastItemAddressLoop_last {α : Type} (s : Store α) :
    ∀ (n : Nat) (bt : DecT α) (p : Option Nat) (id : Nat), bt.sizeT ≤ n →
      DecodesT s p id bt → bt.leavesNE →
      ∀ a, bt.addrsT.getLast? = some a →
      ∃ f, Tree.lastItemAddressLoop f s id = some a := by
  intro n
  induction n with
  | zero =>
    intro bt p id hsz
    cases bt <;> simp [DecT.sizeT] at hsz
  | succ n ih =>
    intro bt p id hsz hdec hne a ha
    cases hdec with
    | leaf p id items hget =>
      rw [addrsT_last_leaf id items hne] at ha
      obtain rfl := Option.some.inj ha
      refine ⟨1, ?_⟩
      cases hl : items.length with
      | zero => exact absurd (List.eq_nil_of_length_eq_zero hl) hne
      | succ m =>
        simp only [Tree.lastItemAddressLoop, hget, Node.childIdOpt,
          Node.itemCount, Leaf.itemCount, hl]
        rfl

    | internal p id bs t0 tbs hget hdec0 hdecB =>
      simp only [DecT.sizeT] at hsz
      have hlen : bs.length = tbs.length := by
        have h2 := congrArg List.length (decodesB_children hdecB)
        simpa using h2
      cases htbs : tbs with
      | nil =>
        subst htbs
        have hla : t0.addrsT.getLast? = some a := by
          rw [DecT.addrsT,
            show addrsB id 0 ([] : List (α × DecT α)) = [] from rfl,
            List.append_nil] at ha
          exact ha
        obtain ⟨fd, hfd⟩ :=
          ih t0 (some id) t0.rootId (by omega) hdec0 hne.1 a hla
        refine ⟨fd + 1, ?_⟩
        have hbs0 : bs = [] := by
          cases hdecB
          rfl
        simp only [Tree.lastItemAddressLoop, hget, Node.childIdOpt,
          Internal.childIdOpt, Node.itemCount, Internal.itemCount, hbs0]
        exact hfd
      | cons hd rest =>
        subst htbs
        have hlastB := addrsB_last (hd :: rest) id 0 hne.2 (by simp)
        obtain ⟨x, t, hlast, haddr⟩ := hlastB
        have hmem : (x, t) ∈ hd :: rest := by
          have := List.getLast?_eq_getElem? (hd :: rest)
          rw [this] at hlast
          exact List.getElem?_mem hlast
        have hj : (hd :: rest)[(hd :: rest).length - 1]? = some (x, t) := by
          rw [← List.getLast?_eq_getElem?]
          exact hlast
        obtain ⟨hbs, hdect⟩ := decodesB_getElem hdecB _ x t hj
        have hla : t.addrsT.getLast? = some a := by
          rw [DecT.addrsT,
            List.getLast?_append_of_ne_nil _ (addrsB_ne id 0 hd rest),
            haddr] at ha
          exact ha
        obtain ⟨fd, hfd⟩ := ih t (some id) t.rootId
          (by
            have := sizeT_memberB (hd :: rest) x t hmem
            omega)
          hdect (leavesNE_memberB _ hne.2 x t hmem) a hla
        have hblen : bs.length = rest.length + 1 := by
          rw [hlen]
          simp
        have hch : Node.childIdOpt
            (.internal (⟨p, t0.rootId, bs⟩ : Internal α))
            ((⟨p, t0.rootId, bs⟩ : Internal α).otherChildren.length) =
            some t.rootId := by
          simp only [Node.childIdOpt, Internal.childIdOpt,
            if_neg (by simp [hblen] : ¬ bs.length = 0)]
          rw [show bs.length - 1 = (hd :: rest).length - 1 from by
            simp [hblen], hbs]
          rfl
        refine ⟨fd + 1, ?_⟩
        simp only [Tree.lastItemAddressLoop, hget, Node.itemCount,
          Internal.itemCount, hch]
        exact hfd

/-- Starting `previous_item_address` at the first item address of a
decoded subtree reduces to climbing from offset 0 of its root: the walk
escapes the subtree. -/
theorem pia_first_escape {α : Type} (s : Store α) :
    ∀ (n : Nat) (bt : DecT α) (p : Option Nat) (id : Nat), bt.sizeT ≤ n →
      DecodesT s p id bt → bt.idsT.Nodup → bt.leavesNE →
      ∀ a, bt.addrsT.head? = some a →
      ∀ r, (∃ f, Store.piaClimb f s ⟨id, .idx 0⟩ = some r) →
      ∃ f, Store.previousItemAddress f s a = some r := by
  intro n
  induction n with
  | zero =>
    intro bt p id hsz
    cases bt <;> simp [DecT.sizeT] at hsz
  | succ n ih =>
    intro bt p id hsz hdec hnd hne a ha r hclimb
    obtain ⟨fc, hfc⟩ := hclimb
    cases hdec with
    | leaf p id items hget =>
      rw [addrsT_head_leaf id items hne] at ha
      obtain rfl := Option.some.inj ha
      refine ⟨fc + 1, ?_⟩
      rw [Store.previousItemAddress,
        piaDescend_step_stop s fc ⟨id, .idx 0⟩ _ hget 0 rfl rfl]
      exact hfc
    | internal p id bs t0 tbs hget hdec0 hdecB =>
      simp only [DecT.sizeT] at hsz
      have hnd0 : t0.idsT.Nodup := nodup_first hnd
      have hne0 : t0.leavesNE := hne.1
      have hha : t0.addrsT.head? = some a := by
        rw [DecT.addrsT, head?_append_left _ _ (addrsT_ne t0 hne0)] at ha
        exact ha
      refine ih t0 (some id) t0.rootId (by omega) hdec0 hnd0 hne0 a hha r ?_
      obtain ⟨node0, hget0, hpar0, hcount0⟩ := decodesT_get hdec0
      have hci := (childIndex_of_decoded (p := p) hdecB hnd).1
      refine ⟨fc + 1, ?_⟩
      rw [piaClimb_step_up s fc ⟨t0.rootId, .idx 0⟩ node0 rfl
        hget0 id hpar0 0 (by rw [hget]; exact hci)]
      exact hfc

/-- Backward adjacency of `previous_item_address` along the addresses
contributed by a decoded branch list, given the same property (`ihT`) for
subtrees of bounded size. -/
theorem pia_chainB {α : Type} (s : Store α) (n : Nat)
    (ihT : ∀ (bt : DecT α) (p : Option Nat) (id : Nat), bt.sizeT ≤ n →
      DecodesT s p id bt → bt.idsT.Nodup → bt.leavesNE →
      List.Chain' (fun a a' => PrevA s a' a) bt.addrsT) :
    ∀ (tbs : List (α × DecT α)) (id k : Nat) (node : Node α),
      s.get? id = some node →
      sizeB tbs ≤ n →
      k + tbs.length = node.itemCount →
      (∀ x t, (x, t) ∈ tbs → t.idsT.Nodup) →
      (∀ x t, (x, t) ∈ tbs → t.leavesNE) →
      (∀ x t, (x, t) ∈ tbs → DecodesT s (some id) t.rootId t) →
      (∀ (j : Nat) (x : α) (t : DecT α), tbs[j]? = some (x, t) →
        node.childIdOpt (k + j + 1) = some t.rootId ∧
        node.childIndex t.rootId = some (k + j + 1)) →
      List.Chain' (fun a a' => PrevA s a' a) (addrsB id k tbs) := by
  intro tbs
  induction tbs with
  | nil =>
    intro id k node _ _ _ _ _ _ _
    rw [show addrsB id k ([] : List (α × DecT α)) = [] from rfl]
    exact List.chain'_nil
  | cons hd rest ih =>
    obtain ⟨x, t⟩ := hd
    intro id k node hget hsz hcount hnd hne hdec hch
    have hdect : DecodesT s (some id) t.rootId t :=
      hdec x t (List.mem_cons_self _ _)
    have hndt : t.idsT.Nodup := hnd x t (List.mem_cons_self _ _)
    have hnet : t.leavesNE := hne x t (List.mem_cons_self _ _)
    have hszt : t.sizeT ≤ n := by
      rw [show sizeB ((x, t) :: rest) = t.sizeT + sizeB rest from rfl] at hsz
      omega
    have hch0 : node.childIdOpt (k + 1) = some t.rootId ∧
        node.childIndex t.rootId = some (k + 1) := by
      have := hch 0 x t (by simp)
      simpa using this
    obtain ⟨nodet, hgett, hpart, hcountt⟩ := decodesT_get hdect
    show List.Chain' (fun a a' => PrevA s a' a)
      ((⟨id, .idx k⟩ :: t.addrsT) ++ addrsB id (k + 1) rest)
    rw [List.chain'_append]
    refine ⟨?_, ?_, ?_⟩
    · rw [List.chain'_cons']
      refine ⟨?_, ihT t (some id) t.rootId hszt hdect hndt hnet⟩
      intro b hb
      rw [Option.mem_def] at hb
      refine pia_first_escape s t.sizeT t (some id) t.rootId le_rfl
        hdect hndt hnet b hb (some ⟨id, .idx k⟩) ⟨2, ?_⟩
      rw [piaClimb_step_up s 1 ⟨t.rootId, .idx 0⟩ nodet rfl hgett id hpart
          (k + 1) (by rw [hget]; exact hch0.2),
        piaClimb_step_pos s 0 ⟨id, .idx (k + 1)⟩ (cmpNat_gt_zero k)]
      rfl
    · refine ih id (k + 1) node hget ?_ ?_ ?_ ?_ ?_ ?_
      · rw [show sizeB ((x, t) :: rest) = t.sizeT + sizeB rest from rfl]
          at hsz
        omega
      · rw [List.length_cons] at hcount
        omega
      · exact fun y u hm => hnd y u (List.mem_cons_of_mem _ hm)
      · exact fun y u hm => hne y u (List.mem_cons_of_mem _ hm)
      · exact fun y u hm => hdec y u (List.mem_cons_of_mem _ hm)
      · intro j y u hj
        have h := hch (j + 1) y u (by simpa using hj)
        have hidx : k + (j + 1) + 1 = k + 1 + j + 1 := by omega
        rw [hidx] at h
        exact h
    · intro a ha b hb
      cases rest with
      | nil =>
        rw [show addrsB id (k + 1) ([] : List (α × DecT α)) = [] from rfl]
          at hb
        simp at hb
      | cons hd2 rest2 =>
        obtain ⟨x2, t2⟩ := hd2
        rw [Option.mem_def, addrsB_head] at hb
        obtain rfl := Option.some.inj hb
        rw [Option.mem_def,
          show (⟨id, .idx k⟩ :: t.addrsT : List Address) =
            [⟨id, .idx k⟩] ++ t.addrsT from rfl,
          List.getLast?_append_of_ne_nil _ (addrsT_ne t hnet)] at ha
        obtain ⟨fd, hfd⟩ := piaDescend_last s t.sizeT t (some id) t.rootId
          le_rfl hdect hnet a ha
        refine ⟨fd + 1, ?_⟩
        rw [Store.previousItemAddress,
          piaDescend_step_child s fd ⟨id, .idx (k + 1)⟩ node hget (k + 1)
            rfl t.rootId hch0.1 nodet hgett, hcountt]
        exact hfd

/-- Every pair of in-order adjacent addresses of a decoded subtree is
related backwards by `previous_item_address`. -/
theorem pia_chain {α : Type} (s : Store α) :
    ∀ (n : Nat) (bt : DecT α) (p : Option Nat) (id : Nat), bt.sizeT ≤ n →
      DecodesT s p id bt → bt.idsT.Nodup → bt.leavesNE →
      List.Chain' (fun a a' => PrevA s a' a) bt.addrsT := by
  intro n
  induction n with
  | zero =>
    intro bt p id hsz
    cases bt <;> simp [DecT.sizeT] at hsz
  | succ n ih =>
    intro bt p id hsz hdec hnd hne
    cases hdec with
    | leaf p id items hget =>
      rw [DecT.addrsT, List.chain'_map]
      cases hlen : items.length with
      | zero => simp
      | succ m =>
        rw [List.chain'_range_succ]
        intro i hi
        refine ⟨2, ?_⟩
        rw [Store.previousItemAddress,
          piaDescend_step_stop s 1 ⟨id, .idx (i + 1)⟩ _ hget (i + 1)
            rfl rfl,
          piaClimb_step_pos s 0 ⟨id, .idx (i + 1)⟩ (cmpNat_gt_zero i)]
        rfl
    | internal p id bs t0 tbs hget hdec0 hdecB =>
      have hszt : 1 + t0.sizeT + sizeB tbs ≤ n + 1 := by
        simpa [DecT.sizeT] using hsz
      have hlen : bs.length = tbs.length := by
        have h2 := congrArg List.length (decodesB_children hdecB)
        simpa using h2
      have hndB : (idsB tbs).Nodup := by
        rw [DecT.idsT, List.nodup_cons, List.nodup_append] at hnd
        exact hnd.2.2.1
      have hcount : 0 + tbs.length =
          (Node.internal (⟨p, t0.rootId, bs⟩ : Internal α)).itemCount := by
        simp only [Node.itemCount, Internal.itemCount]
        omega
      obtain ⟨node0, hget0, hpar0, hcount0⟩ := decodesT_get hdec0
      rw [DecT.addrsT, List.chain'_append]
      refine ⟨?_, ?_, ?_⟩
      · exact ih t0 (some id) t0.rootId (by omega) hdec0 (nodup_first hnd)
          hne.1
      · refine pia_chainB s n ih tbs id 0 _ hget (by omega) hcount
          (fun y u hm => nodup_memberB tbs hndB y u hm)
          (fun y u hm => leavesNE_memberB tbs hne.2 y u hm)
          (fun y u hm => ?_) ?_
        · obtain ⟨j, hj⟩ := List.mem_iff_getElem?.1 hm
          exact (decodesB_getElem hdecB j y u hj).2
        · intro j y u hj
          refine ⟨?_, ?_⟩
          · have hbsj := (decodesB_getElem hdecB j y u hj).1
            simp only [Node.childIdOpt, Internal.childIdOpt,
              if_neg (by omega : ¬ 0 + j + 1 = 0)]
            rw [show 0 + j + 1 - 1 = j from by omega, hbsj]
            rfl
          · have h := (childIndex_of_decoded (p := p)
              hdecB hnd).2 j y u hj
            rw [show 0 + j + 1 = j + 1 from by omega]
            exact h
      · intro a ha b hb
        cases htbs : tbs with
        | nil =>
          rw [htbs] at hb
          rw [show addrsB id 0 ([] : List (α × DecT α)) = [] from rfl] at hb
          simp at hb
        | cons hd1 rest1 =>
          obtain ⟨x1, t1⟩ := hd1
          rw [htbs, Option.mem_def, addrsB_head] at hb
          obtain rfl := Option.some.inj hb
          rw [Option.mem_def] at ha
          obtain ⟨fd, hfd⟩ := piaDescend_last s t0.sizeT t0 (some id)
            t0.rootId le_rfl hdec0 hne.1 a ha
          refine ⟨fd + 1, ?_⟩
          rw [Store.previousItemAddress,
            piaDescend_step_child s fd ⟨id, .idx 0⟩ _ hget 0 rfl t0.rootId
              (by simp [Node.childIdOpt, Internal.childIdOpt]) node0 hget0,
            hcount0]
          exact hfd

/-- The first yielding step of the backward iterator loop. -/
theorem iterBackCollect_first_step {α : Type} (t : Tree α) (fuel n : Nat)
    (a : Address) (x : α)
    (hlast : t.lastItemAddress fuel = some (some a))
    (hget : t.getAt a = some (some x)) :
    Tree.iterBackCollect fuel t (n + 1) none =
      (Tree.iterBackCollect fuel t n (some a)).map (fun xs => x :: xs) := by
  simp [Tree.iterBackCollect, hlast, hget]

/-- C7: on a valid tree (a storage decoding to a well-formed view with
distinct handles, nonempty leaves and a matching length, or the empty
tree), `iter()` yields exactly the stored elements in comparator order
(given sortedness of the stored sequence, consecutive yields compare
strictly less), and `iter().rev()` yields the same elements reversed. -/
theorem c7_iteration_order {α : Type} (cmp : α → α → Ordering) (t : Tree α)
    (obt : Option (DecT α))
    (hvalid : match obt with
      | none => t.root = none ∧ t.len = 0
      | some bt => ∃ rid, t.root = some rid ∧
          DecodesT t.nodes none rid bt ∧ bt.idsT.Nodup ∧ bt.leavesNE ∧
          t.len = bt.itemsT.length)
    (hsort : List.Chain' (fun a b => cmp a b = .lt)
        (obt.elim [] DecT.itemsT)) :
    ∃ F, ∀ fuel, F ≤ fuel →
      t.iterList fuel = some (obt.elim [] DecT.itemsT) ∧
      List.Chain' (fun a b => cmp a b = .lt) (obt.elim [] DecT.itemsT) ∧
      t.iterRevList fuel = some (obt.elim [] DecT.itemsT).reverse := by
  cases obt with
  | none =>
    obtain ⟨hroot, hlen⟩ := hvalid
    refine ⟨0, fun fuel _ => ⟨?_, hsort, ?_⟩⟩
    · simp [Tree.iterList, Tree.firstItemAddress, hroot, hlen,
        Tree.iterCollect, Option.elim]
    · simp [Tree.iterRevList, hlen, Tree.iterBackCollect, Option.elim]
  | some bt =>
    obtain ⟨rid, hroot, hdec, hnd, hne, hlen⟩ := hvalid
    simp only [Option.elim] at hsort ⊢
    have haddrlen := addrsT_length bt
    have hine : bt.itemsT ≠ [] := itemsT_ne bt hne
    have hZfst : (bt.addrsT.zip bt.itemsT).map Prod.fst = bt.addrsT :=
      List.map_fst_zip _ _ (le_of_eq haddrlen)
    have hZsnd : (bt.addrsT.zip bt.itemsT).map Prod.snd = bt.itemsT :=
      List.map_snd_zip _ _ (le_of_eq haddrlen.symm)
    have hZlen : (bt.addrsT.zip bt.itemsT).length = bt.itemsT.length := by
      rw [List.length_zip, haddrlen, Nat.min_self]
    have hZne : bt.addrsT.zip bt.itemsT ≠ [] := by
      intro hc
      rw [hc] at hZlen
      exact hine (List.eq_nil_of_length_eq_zero hZlen.symm)
    have hread := addrs_items_read t.nodes bt.sizeT bt none rid le_rfl hdec
    have hchainZ : List.Chain' (fun q q' => NextA t.nodes q.1 q'.1)
        (bt.addrsT.zip bt.itemsT) := by
      have h := nia_chain t.nodes bt.sizeT bt none rid le_rfl hdec hnd hne
      rw [← hZfst] at h
      exact (List.chain'_map Prod.fst).1 h
    have hchainPZ : List.Chain' (fun q q' => PrevA t.nodes q'.1 q.1)
        (bt.addrsT.zip bt.itemsT) := by
      have h := pia_chain t.nodes bt.sizeT bt none rid le_rfl hdec hnd hne
      rw [← hZfst] at h
      exact (List.chain'_map Prod.fst).1 h
    cases hZ : bt.addrsT.zip bt.itemsT with
    | nil => exact absurd hZ hZne
    | cons q0 ps =>
      rw [hZ] at hread hchainZ hchainPZ hZfst hZsnd hZlen
      obtain ⟨ql, hql⟩ : ∃ ql, (q0 :: ps).getLast? = some ql :=
        Option.isSome_iff_exists.1 (List.getLast?_isSome.2 (by simp))
      have hql1 : bt.addrsT.getLast? = some ql.1 := by
        rw [← hZfst, List.getLast?_map, hql]
        rfl
      have hhead : bt.addrsT.head? = some q0.1 := by
        rw [← hZfst]
        rfl
      have hmemql : ql ∈ q0 :: ps := by
        rw [List.getLast?_eq_getElem?] at hql
        exact List.getElem?_mem hql
      obtain ⟨noder, hgetr, hparr, hcountr⟩ := decodesT_get hdec
      have hesc : ∃ f, Store.nextItemAddress f t.nodes ql.1 = some none :=
        nia_last_escape t.nodes bt.sizeT bt none rid le_rfl hdec hnd hne
          ql.1 hql1 none
          ⟨1, by
            rw [niaClimb_step_root t.nodes 0 ⟨rid, .idx bt.rootCount⟩ noder
              hgetr (by rw [hcountr]; exact ltNat_idx_false le_rfl) hparr]⟩
      obtain ⟨F0, hF0⟩ := firstItemAddressLoop_first t.nodes bt.sizeT bt
        none rid le_rfl hdec hne q0.1 hhead
      obtain ⟨F3, hF3⟩ := lastItemAddressLoop_last t.nodes bt.sizeT bt
        none rid le_rfl hdec hne ql.1 hql1
      obtain ⟨F1, hF1⟩ := iterCollect_run t.nodes ps q0 ql none
        hchainZ hread hql hesc
      have hgetAtL : t.getAt ql.1 = some (some ql.2) := by
        obtain ⟨node, hget, hitem⟩ := hread ql hmemql
        simp [Tree.getAt, hget, hitem]
      have hrev : List.Chain' (fun q q' => PrevA t.nodes q.1 q'.1)
          ((q0 :: ps).reverse) := by
        rw [List.chain'_reverse]
        exact hchainPZ
      cases hZr : (q0 :: ps).reverse with
      | nil => simp at hZr
      | cons qL psr =>
        have hqLeq : qL = ql := by
          have h := List.head?_reverse (q0 :: ps)
          rw [hZr, hql] at h
          exact Option.some.inj h
        subst hqLeq
        rw [hZr, List.chain'_cons'] at hrev
        obtain ⟨hheadr, hchainr⟩ := hrev
        have hmemr : ∀ q ∈ psr, q ∈ q0 :: ps := by
          intro q hq
          have hqm : q ∈ (q0 :: ps).reverse := by
            rw [hZr]
            exact List.mem_cons_of_mem _ hq
          exact List.mem_reverse.1 hqm
        obtain ⟨F2, hF2⟩ := iterBackCollect_run t psr qL.1
          (fun q hq => hheadr q (Option.mem_def.2 hq)) hchainr
          (fun q hq => by
            obtain ⟨node, hget, hitem⟩ := hread q (hmemr q hq)
            simp [Tree.getAt, hget, hitem])
        have hlenF : t.len = ps.length + 1 := by
          rw [hlen, ← hZlen]
          simp
        have hlenB : t.len = psr.length + 1 := by
          rw [hlen, ← hZlen, ← List.length_reverse, hZr]
          simp
        have hrevitems : bt.itemsT.reverse = qL.2 :: psr.map Prod.snd := by
          rw [← hZsnd, ← List.map_reverse, hZr]
          rfl
        refine ⟨max (max F0 F1) (max F2 F3), fun fuel hf => ?_⟩
        refine ⟨?_, hsort, ?_⟩
        · have hloopF := firstItemAddressLoop_mono t.nodes F0 rid q0.1 fuel
            (by omega) hF0
          have h1 : t.firstItemAddress fuel = some (some q0.1) := by
            simp [Tree.firstItemAddress, hroot, hloopF]
          rw [Tree.iterList, h1, hlenF]
          show Tree.iterCollect fuel t.nodes (ps.length + 1) (some q0.1) =
            some bt.itemsT
          rw [hF1 fuel (by omega), hZsnd]
        · have hloopL := lastItemAddressLoop_mono t.nodes F3 rid qL.1 fuel
            (by omega) hF3
          have h2 : t.lastItemAddress fuel = some (some qL.1) := by
            simp [Tree.lastItemAddress, hroot, hloopL]
          rw [Tree.iterRevList, hlenB,
            iterBackCollect_first_step t fuel psr.length qL.1 qL.2 h2
              hgetAtL,
            hF2 fuel (by omega), hrevitems]
          rfl

/-- C7 witness: a one-leaf tree holding `[1, 2]`. -/
theorem c7_iteration_order_witness :
    (∃ rid,
      (Tree.mk ⟨[some (.leaf ⟨none, [1, 2]⟩)]⟩ (some 0) 2 : Tree Nat).root
          = some rid ∧
        DecodesT (⟨[some (.leaf ⟨none, [1, 2]⟩)]⟩ : Store Nat) none rid
          (.leafT 0 [1, 2]) ∧
        (DecT.leafT 0 [1, 2] : DecT Nat).idsT.Nodup ∧
        (DecT.leafT 0 [1, 2] : DecT Nat).leavesNE ∧
        (Tree.mk ⟨[some (.leaf ⟨none, [1, 2]⟩)]⟩ (some 0) 2 : Tree Nat).len
          = (DecT.leafT 0 [1, 2] : DecT Nat).itemsT.length) ∧
    List.Chain' (fun a b => compare a b = .lt)
      ((some (DecT.leafT 0 [1, 2] : DecT Nat)).elim [] DecT.itemsT) ∧
    (∃ F, ∀ fuel, F ≤ fuel →
      (Tree.mk ⟨[some (.leaf ⟨none, [1, 2]⟩)]⟩ (some 0) 2
          : Tree Nat).iterList fuel =
        some ((some (DecT.leafT 0 [1, 2] : DecT Nat)).elim [] DecT.itemsT) ∧
      List.Chain' (fun a b => compare a b = .lt)
        ((some (DecT.leafT 0 [1, 2] : DecT Nat)).elim [] DecT.itemsT) ∧
      (Tree.mk ⟨[some (.leaf ⟨none, [1, 2]⟩)]⟩ (some 0) 2
          : Tree Nat).iterRevList fuel =
        some (((some (DecT.leafT 0 [1, 2] : DecT Nat)).elim []
          DecT.itemsT).reverse)) := by
  have hvalid : ∃ rid,
      (Tree.mk ⟨[some (.leaf ⟨none, [1, 2]⟩)]⟩ (some 0) 2 : Tree Nat).root
          = some rid ∧
        DecodesT (⟨[some (.leaf ⟨none, [1, 2]⟩)]⟩ : Store Nat) none rid
          (.leafT 0 [1, 2]) ∧
        (DecT.leafT 0 [1, 2] : DecT Nat).idsT.Nodup ∧
        (DecT.leafT 0 [1, 2] : DecT Nat).leavesNE ∧
        (Tree.mk ⟨[some (.leaf ⟨none, [1, 2]⟩)]⟩ (some 0) 2 : Tree Nat).len
          = (DecT.leafT 0 [1, 2] : DecT Nat).itemsT.length :=
    ⟨0, rfl, DecodesT.leaf none 0 [1, 2] rfl, by simp [DecT.idsT],
      by simp [DecT.leavesNE], rfl⟩
  have hsort : List.Chain' (fun a b => compare a b = .lt)
      ((some (DecT.leafT 0 [1, 2] : DecT Nat)).elim [] DecT.itemsT) :=
    List.Chain.cons (by decide) List.Chain.nil
  exact ⟨hvalid, hsort,
    c7_iteration_order compare
      (Tree.mk ⟨[some (.leaf ⟨none, [1, 2]⟩)]⟩ (some 0) 2)
      (some (.leafT 0 [1, 2])) hvalid hsort⟩

end RawBTree
